import Mathlib

/-!
# The matching core of grep (`src/search.c`)

A shallow embedding of `search.c`: the four compile functions (`Gcompile`,
`Ecompile`, `Fcompile`, `Pcompile`), the multibyte probe
(`check_multibyte_string`) and the two executors `EGexecute` and `Fexecute`.

Conventions of the embedding.

* A byte is a natural number; a C pointer into a buffer is the index of the
  byte it points to; a buffer is a `List Nat` and `size` is its length.
* `(size_t) -1` ("no match") is `Outcome.nomatch`.  A run that leaves defined C
  (a `NULL` returned by `memchr` that is then incremented and used, a read
  outside the buffer) ends in `undefined`; a loop that is cut by the budget of
  the embedding ends in `fuel`.
* The keyword-set, DFA and regex engines (`kwset.c`, `dfa.c`, `regex.c`) are
  not part of `search.c`.  A compiled pattern carries them as functions of the
  text they are handed.
* Sizes, offsets and lengths are natural numbers: the wrap-around of `int` and
  `size_t`, which needs a buffer of 2 GiB or more, is not modelled.
* Allocation and release of scratch memory is not modelled.
-/

namespace Grep

/-! ## Results -/

/-- Failure modes of the embedding that are not results of the C function. -/
inductive Fault where
  /-- A read or write outside the object the pointer belongs to. -/
  | outOfBounds
  /-- The iteration budget of the embedding ran out. -/
  | fuel
  /-- The C function called `fatal`. -/
  | fatal
  deriving DecidableEq

/-- Result of a compile function: a value or a fault. -/
inductive Res (α : Type) where
  | ok (a : α)
  | fault (f : Fault)
  deriving DecidableEq

/-- Sequencing of fallible steps. -/
def Res.bind {α β : Type} (r : Res α) (f : α → Res β) : Res β :=
  match r with
  | .ok a => f a
  | .fault e => .fault e

/-- Result of an execute function (`EGexecute`, `Fexecute`). -/
inductive Outcome where
  /-- The function returned `(size_t) -1`. -/
  | nomatch
  /-- The function returned `off` and stored `len` in `*match_size`. -/
  | found (off len : Nat)
  /-- The run left defined behaviour. -/
  | undefined
  /-- The iteration budget of the embedding ran out. -/
  | fuel
  deriving DecidableEq

/-! ## Configuration (the globals of `grep.h` read by `search.c`) -/

/-- The result of `mbrlen`: `(size_t) -1`, `(size_t) -2`, or a byte count. -/
inductive MbLen where
  | invalid
  | incomplete
  | len (k : Nat)
  deriving DecidableEq

/-- The globals `match_icase`, `match_words`, `match_lines`, `eolbyte`, the
locale's `MB_CUR_MAX` and its decoder `mbrlen` (the conversion state
`mbstate_t` is a natural number, `0` the initial state). -/
structure Config where
  match_icase : Bool
  match_words : Bool
  match_lines : Bool
  eolbyte : Nat
  mb_cur_max : Nat
  mbrlen : Nat → List Nat → MbLen × Nat

/-- Modelled from the spec: the macro `ISALNUM` of `system.h` is not in
`search.c`; section 6 of the spec fixes the word characters as
`[0-9A-Za-z_]` on the raw byte domain, so `ISALNUM` is `[0-9A-Za-z]`. -/
def ISALNUM (c : Nat) : Bool :=
  (48 ≤ c && c ≤ 57) || (65 ≤ c && c ≤ 90) || (97 ≤ c && c ≤ 122)

/-- `#define WCHAR(C) (ISALNUM(C) || (C) == '_')`. -/
def WCHAR (c : Nat) : Bool := ISALNUM c || c == 95

/-! ## C library helpers -/

/-- `memchr (s, c, n)` on the bytes `s` that start at the pointer: the index of
the first `c` among the first `n` bytes, `none` for `NULL`. -/
def memchr : List Nat → Nat → Nat → Option Nat
  | _, _, 0 => none
  | [], _, _ + 1 => none
  | b :: s, c, n + 1 => if b = c then some 0 else (memchr s c n).map (· + 1)

/-- `memchr (mem + p, c, n)` inside a memory object `mem`: the absolute index
of the first `c` in `mem[p .. p+n)`, `none` for `NULL`, and a fault when the
scan runs past the end of `mem` before it finds `c`. -/
def memchrMem (mem : List Nat) (p c : Nat) : Nat → Res (Option Nat)
  | 0 => .ok none
  | n + 1 =>
    match mem.drop p with
    | [] => .fault .outOfBounds
    | b :: _ =>
      if b = c then .ok (some p)
      else memchrMem mem (p + 1) c n

/-- The bytes `mem[p .. p+n)`. -/
def slice (mem : List Nat) (p n : Nat) : List Nat := (mem.drop p).take n

/-! ## Pattern compilation: `Gcompile`, `Ecompile`, `Fcompile` -/

/-- What one round of `Gcompile` or `Ecompile` hands to the engine compilers:
the text given to `re_compile_pattern` and the text given to `dfacomp`. -/
structure PatSrc where
  regex : List Nat
  dfa : List Nat
  deriving DecidableEq

/-- The string literals of `Gcompile`. -/
def G_line_beg : List Nat := "^\\(".toList.map Char.toNat
def G_line_end : List Nat := "\\)$".toList.map Char.toNat
def G_word_beg : List Nat := "\\(^\\|[^[:alnum:]_]\\)\\(".toList.map Char.toNat
def G_word_end : List Nat := "\\)\\([^[:alnum:]_]\\|$\\)".toList.map Char.toNat

/-- The string literals of `Ecompile`. -/
def E_line_beg : List Nat := "^(".toList.map Char.toNat
def E_line_end : List Nat := ")$".toList.map Char.toNat
def E_word_beg : List Nat := "(^|[^[:alnum:]_])(".toList.map Char.toNat
def E_word_end : List Nat := ")([^[:alnum:]_]|$)".toList.map Char.toNat

/-- The text handed to `dfacomp` (lines 227-249 and 302-323): with
`match_words` or `match_lines` the buffer `n` is filled by
`strcpy (n, match_lines ? line_beg : word_beg)`, `memcpy` of the alternative
and `strcpy` of the matching end. -/
def wrapDfa (cfg : Config) (line_beg line_end word_beg word_end alt : List Nat) : List Nat :=
  if cfg.match_words || cfg.match_lines then
    (if cfg.match_lines then line_beg else word_beg) ++ alt ++
      (if cfg.match_lines then line_end else word_end)
  else alt

/-- The `do ... while (sep && total != 0)` loop of `Gcompile` (lines 199-256).
`mem` is the memory object that holds the pattern, `motif` the index of the
current alternative, `total` the variable of that name, `acc` the patterns
appended so far. -/
def GcompileLoop (cfg : Config) (mem : List Nat) :
    Nat → Nat → Nat → List PatSrc → Res (List PatSrc)
  | 0, _, _, _ => .fault .fuel
  | fuel + 1, motif, total, acc =>
    -- sep = memchr (motif, '\n', total + 1);
    (memchrMem mem motif 10 (total + 1)).bind fun sep =>
      -- if (sep) { size = sep - motif; total -= size; sep++; } else size = total;
      let size := match sep with
        | some s => s - motif
        | none => total
      let total1 := match sep with
        | some _ => total - size
        | none => total
      if mem.length < motif + size then .fault .outOfBounds
      else
        let alt := slice mem motif size
        let acc1 := acc ++ [⟨alt, wrapDfa cfg G_line_beg G_line_end G_word_beg G_word_end alt⟩]
        -- motif = sep;  } while (sep && total != 0);
        match sep with
        | some s => if total1 ≠ 0 then GcompileLoop cfg mem fuel (s + 1) total1 acc1 else .ok acc1
        | none => .ok acc1

/-- `Gcompile (motif, total)`: `mem` is the memory object `motif` points into
(the `total` pattern bytes and whatever follows them), `pats` the patterns
compiled before the call.  The result is the new value of `patterns`. -/
def Gcompile (cfg : Config) (pats : List PatSrc) (mem : List Nat) (total : Nat) :
    Res (List PatSrc) :=
  GcompileLoop cfg mem (mem.length + 2) 0 total pats

/-- The `do ... while (sep && total == 0)` loop of `Ecompile` (lines 277-330). -/
def EcompileLoop (cfg : Config) (mem : List Nat) :
    Nat → Nat → Nat → List PatSrc → Res (List PatSrc)
  | 0, _, _, _ => .fault .fuel
  | fuel + 1, motif, total, acc =>
    -- sep = memchr (motif, '\n', total);
    (memchrMem mem motif 10 total).bind fun sep =>
      -- if (sep) { size = sep - motif; sep++; total -= (size + 1); } else size = total;
      let size := match sep with
        | some s => s - motif
        | none => total
      let total1 := match sep with
        | some _ => total - (size + 1)
        | none => total
      if mem.length < motif + size then .fault .outOfBounds
      else
        let alt := slice mem motif size
        let acc1 := acc ++ [⟨alt, wrapDfa cfg E_line_beg E_line_end E_word_beg E_word_end alt⟩]
        -- motif = sep;  } while (sep && total == 0);
        match sep with
        | some s => if total1 = 0 then EcompileLoop cfg mem fuel (s + 1) total1 acc1 else .ok acc1
        | none => .ok acc1

/-- `Ecompile (motif, total)`; the choice between the awk and the egrep syntax
bits (lines 266-275) only configures the engine compilers and has no part in
which texts are compiled. -/
def Ecompile (cfg : Config) (pats : List PatSrc) (mem : List Nat) (total : Nat) :
    Res (List PatSrc) :=
  EcompileLoop cfg mem (mem.length + 2) 0 total pats

/-- The scan `for (lim = beg; lim < motif + size && *lim != '\n'; ++lim)` of
`Fcompile`: the final value of `lim`. -/
def FcompileScan (motif : List Nat) (size : Nat) : Nat → Nat → Nat
  | 0, lim => lim
  | fuel + 1, lim =>
    if lim < size ∧ motif.getD lim 0 ≠ 10 then FcompileScan motif size fuel (lim + 1) else lim

/-- The `do ... while (beg < motif + size)` loop of `Fcompile` (lines 493-503):
`kws` is the list of keywords given to `kwsincr` so far. -/
def FcompileLoop (motif : List Nat) (size : Nat) : Nat → Nat → List (List Nat) → Res (List (List Nat))
  | 0, _, _ => .fault .fuel
  | fuel + 1, beg, kws =>
    let lim := FcompileScan motif size (size - beg) beg
    let kws1 := kws ++ [slice motif beg (lim - beg)]
    let lim1 := if lim < size then lim + 1 else lim
    if lim1 < size then FcompileLoop motif size fuel lim1 kws1 else .ok kws1

/-- `Fcompile (motif, size)`: the keywords inserted, in order, into the keyword
set of the one pattern it appends.  Every read is below `motif + size`, so the
memory object is the pattern itself. -/
def Fcompile (_cfg : Config) (motif : List Nat) : Res (List (List Nat)) :=
  FcompileLoop motif motif.length (motif.length + 1) 0 []

/-! ## Pattern compilation: `Pcompile` -/

/-- `*(re + i) = v` inside the object `re`. -/
def store (re : List Nat) (i v : Nat) : Res (List Nat) :=
  if i < re.length then .ok (re.set i v) else .fault .outOfBounds

/-- `memcpy (re + n, bs, len)`: the `len` bytes `bs` replace `re[n .. n+len)`. -/
def memcpy (re : List Nat) (n : Nat) (bs : List Nat) : Res (List Nat) :=
  if n + bs.length ≤ re.length then .ok (re.take n ++ bs ++ re.drop (n + bs.length))
  else .fault .outOfBounds

/-- `strcpy (re + n, s)` for a string literal `s`: its bytes and a NUL. -/
def strcpy (re : List Nat) (n : Nat) (s : List Nat) : Res (List Nat) :=
  memcpy re n (s ++ [0])

/-- `strlen (re + n)`. -/
def strlen (re : List Nat) (n : Nat) : Res Nat :=
  match memchr (re.drop n) 0 (re.length - n) with
  | some k => .ok k
  | none => .fault .outOfBounds

/-- The C string that starts at `re`: what `pcre_compile (re, ...)` reads. -/
def cstring (re : List Nat) : Res (List Nat) :=
  match memchr re 0 re.length with
  | some k => .ok (re.take k)
  | none => .fault .outOfBounds

/-- The four characters `\000`. -/
def nulEscape : List Nat := [92, 48, 48, 48]

/-- `for (p = pnul; pattern < p && p[-1] == '\\'; p--) continue;`: the final
value of `p`, as an index into `pattern`, from the start value `p`. -/
def backslashScan (pattern : List Nat) : Nat → Nat
  | 0 => 0
  | p + 1 => if pattern.getD p 0 = 92 then backslashScan pattern p else p + 1

/-- The loop `for (p = pattern; (pnul = memchr (p, '\0', patlim - p)); p = pnul + 1)`
of `Pcompile` (lines 650-659) on the state `(p, re, n)`: the state when `memchr`
returns `NULL`. -/
def PcompileLoop (pattern : List Nat) : Nat → Nat → List Nat → Nat → Res (Nat × List Nat × Nat)
  | 0, _, _, _ => .fault .fuel
  | fuel + 1, p, re, n =>
    match memchr (pattern.drop p) 0 (pattern.length - p) with
    | none => .ok (p, re, n)
    | some k =>
      let pnul := p + k
      -- memcpy (n, p, pnul - p);  n += pnul - p;
      (memcpy re n (slice pattern p (pnul - p))).bind fun re1 =>
        let n1 := n + (pnul - p)
        let p1 := backslashScan pattern pnul
        -- n -= (pnul - p) & 1;
        let d := (pnul - p1) % 2
        if n1 < d then .fault .outOfBounds
        else
          -- strcpy (n, "\\000");  n += 4;
          (strcpy re1 (n1 - d) nulEscape).bind fun re2 =>
            PcompileLoop pattern fuel (pnul + 1) re2 (n1 - d + 4)

/-- `Pcompile (pattern, size)` built with `HAVE_LIBPCRE`: the C string handed to
`pcre_compile`.  `junk i` is the byte that `xmalloc` left at index `i` of the
buffer `re` of `4 * size + 7` bytes. -/
def Pcompile (cfg : Config) (junk : Nat → Nat) (pattern : List Nat) : Res (List Nat) :=
  let size := pattern.length
  let re0 := (List.range (4 * size + 7)).map junk
  -- if (eolbyte != '\n') fatal (...)
  if cfg.eolbyte ≠ 10 then .fault .fatal
  else
    -- *n = '\0';
    (store re0 0 0).bind fun re1 =>
    -- if (match_lines) strcpy (n, "^(");
    (if cfg.match_lines then strcpy re1 0 [94, 40] else .ok re1).bind fun re2 =>
    -- if (match_words) strcpy (n, "\\b(");
    (if cfg.match_words then strcpy re2 0 [92, 98, 40] else .ok re2).bind fun re3 =>
    -- n += strlen (n);
    (strlen re3 0).bind fun n0 =>
    (PcompileLoop pattern (size + 1) 0 re3 n0).bind fun st =>
      let p := st.1
      let re4 := st.2.1
      let n := st.2.2
      -- memcpy (n, p, patlim - p);  n += patlim - p;
      (memcpy re4 n (slice pattern p (size - p))).bind fun re5 =>
      let n2 := n + (size - p)
      -- *n = '\0';
      (store re5 n2 0).bind fun re6 =>
      -- if (match_words) strcpy (n, ")\\b");
      (if cfg.match_words then strcpy re6 n2 [41, 92, 98] else .ok re6).bind fun re7 =>
      -- if (match_lines) strcpy (n, ")$");
      (if cfg.match_lines then strcpy re7 n2 [41, 36] else .ok re7).bind fun re8 =>
      cstring re8

/-- The number of backslashes at the end of `l`. -/
def trailingBackslashes (l : List Nat) : Nat := (l.reverse.takeWhile (· = 92)).length

/-- What the NUL encoding of the spec makes of one pattern byte `b`, given the
pattern bytes `before` it and the byte `next` after it: a NUL becomes `\000`;
the last backslash of an odd run that ends right before a NUL is deleted;
every other byte is copied. -/
def encodePiece (before : List Nat) (b : Nat) (next : Option Nat) : List Nat :=
  if b = 0 then nulEscape
  else if b = 92 ∧ next = some 0 ∧ (trailingBackslashes before + 1) % 2 = 1 then []
  else [b]

/-- The NUL encoding of the spec applied to the bytes `rest` of a pattern that
follow the bytes `before`. -/
def encodeFrom (before : List Nat) : List Nat → List Nat
  | [] => []
  | b :: rest => encodePiece before b rest.head? ++ encodeFrom (before ++ [b]) rest

/-- The NUL encoding of a Perl pattern as section 4.3 of the spec words it. -/
def encodeSpec (pattern : List Nat) : List Nat := encodeFrom [] pattern

/-! ## The multibyte probe -/

/-- The loop `for (front_of_char = i = 0; i < size; i++)` of
`check_multibyte_string` (lines 155-184) on the state `(i, front_of_char,
last_state)`; `acc` holds `mb_properties[0 .. i)`. -/
def check_multibyte_loop (cfg : Config) (buf : List Nat) :
    Nat → Nat → Nat → Nat → List Nat → List Nat
  | 0, _, _, _, acc => acc
  | fuel + 1, i, front_of_char, last_state, acc =>
    if i < buf.length then
      -- cur_state = last_state;
      -- mbclen = mbrlen (buf + front_of_char, i - front_of_char + 1, &cur_state);
      let r := cfg.mbrlen last_state (slice buf front_of_char (i - front_of_char + 1))
      match r.1 with
      | .invalid =>
        -- singlebyte character: mbclen = 1; front_of_char = i + 1;
        check_multibyte_loop cfg buf fuel (i + 1) (i + 1) last_state (acc ++ [1])
      | .incomplete =>
        -- a part of a multibyte character: mbclen = 0;
        check_multibyte_loop cfg buf fuel (i + 1) front_of_char last_state (acc ++ [0])
      | .len k =>
        if k = 1 then
          check_multibyte_loop cfg buf fuel (i + 1) (i + 1) last_state (acc ++ [1])
        else if 1 < k then
          -- the end of a multibyte character:
          -- mbclen = 0; front_of_char = i + 1; last_state = cur_state;
          check_multibyte_loop cfg buf fuel (i + 1) (i + 1) r.2 (acc ++ [0])
        else
          -- the branch commented "Can't reach": mbclen keeps the value 0
          check_multibyte_loop cfg buf fuel (i + 1) front_of_char last_state (acc ++ [0])
    else acc

/-- The array `mb_properties` that `check_multibyte_string (buf, size)` returns. -/
def check_multibyte_string (cfg : Config) (buf : List Nat) : List Nat :=
  check_multibyte_loop cfg buf buf.length 0 0 0 []

/-! ## Compiled patterns -/

/-- What `kwsexec` reports for a hit: the offset it returns and the fields
`index` and `size[0]` of the `struct kwsmatch` it fills. -/
structure KwsMatch where
  offset : Nat
  index : Nat
  size : Nat
  deriving DecidableEq

/-- A regex match: the start that `re_search` returns and the length
`regs.end[0] - start`. -/
structure ReMatch where
  start : Nat
  len : Nat
  deriving DecidableEq

/-- One element of the array `patterns`.  Each engine is a function of the text
(pointer and size) it is handed; `none` is the engine's failure value
(`(size_t) -1` for `kwsexec` and `dfaexec`, a negative `int` for `re_search` and
`re_match`).
* `kwset`: `none` when the pattern has no keyword set (`kwset` is null).
* `dfa text`: the offset `dfaexec` returns and the value it stores in `*backref`.
* `re_search not_eol text start range`, `re_match not_eol text start`: the regex
  calls, with the value of `regexbuf.not_eol` at the call. -/
structure Bundle where
  kwset : Option (List Nat → Option KwsMatch)
  kwset_exact_matches : Nat
  dfa : List Nat → Option (Nat × Bool)
  re_search : Bool → List Nat → Nat → Nat → Option ReMatch
  re_match : Bool → List Nat → Nat → Option Nat

/-! ## The layered executor `EGexecute` -/

/-- The loop `while (beg > buf && beg[-1] != eol) --beg;`: the final `beg`. -/
def rewind (buf : List Nat) (eol : Nat) : Nat → Nat
  | 0 => 0
  | beg + 1 => if buf.getD beg 0 ≠ eol then rewind buf eol beg else beg + 1

/-- The loop `while (start >= 0)` of the whole-word check (lines 433-462) for the
candidate line `buf[beg .. end)`, on the state `(start, len)`.  The result is
`some (found ..)` for `goto success`, `none` when the loop is left without
success (by `break` or by a failed `re_search`), and a fault otherwise.  The
first argument is the iteration budget. -/
def EGwordLoop (B : Bundle) (buf : List Nat) (beg endp : Nat) :
    Nat → Nat → Nat → Option Outcome
  | 0, _, _ => some .fuel
  | fuel + 1, start, len =>
    let L := endp - beg - 1
    -- start == 0 || !WCHAR ((unsigned char) beg[start - 1])
    let c1 : Option Bool :=
      if start = 0 then some true else (buf.get? (beg + start - 1)).map fun c => !WCHAR c
    match c1 with
    | none => some .undefined
    | some b1 =>
      -- len == end - beg - 1 || !WCHAR ((unsigned char) beg[start + len])
      let c2 : Option Bool :=
        if !b1 then some false
        else if len = L then some true
        else (buf.get? (beg + start + len)).map fun c => !WCHAR c
      match c2 with
      | none => some .undefined
      | some true => some (.found beg (endp - beg))
      | some false =>
        -- if (len > 0) { --len; not_eol = 1; len = re_match (.., beg, start + len, start, ..); }
        let len1 : Option Nat :=
          if 0 < len then B.re_match true (slice buf beg (start + (len - 1))) start
          else some len
        match len1 with
        | some (l + 1) => EGwordLoop B buf beg endp fuel start (l + 1)
        | _ =>
          -- if (len <= 0) { if (start == end - beg - 1) break; ++start; ... re_search ... }
          if start = L then none
          else
            match B.re_search false (slice buf beg L) (start + 1) (L - (start + 1)) with
            | none => none
            | some m => EGwordLoop B buf beg endp fuel m.start m.len

/-- Lines 410-463: the regex confirmation of the candidate region
`buf[beg .. end)`.  The result is `some r` when the function returns `r` from
here (`return start` in exact mode, `goto success` otherwise) and `none` when
control reaches the end of the body of the `for` loop. -/
def EGconfirm (cfg : Config) (B : Bundle) (buf : List Nat) (exact : Bool) (wfuel : Nat)
    (beg endp : Nat) : Option Outcome :=
  let L := endp - beg - 1
  match B.re_search false (slice buf beg L) 0 L with
  | none => none
  | some m =>
    if exact then some (.found m.start m.len)
    else if (!cfg.match_lines && !cfg.match_words) || (cfg.match_lines && m.len == L) then
      some (.found beg (endp - beg))
    else if cfg.match_words then EGwordLoop B buf beg endp wfuel m.start m.len
    else none

/-- The loop `for (beg = end = buf; end < buflim; beg = end)` (lines 354-464) for
one pattern; `cur` is the common value of `beg` and `end` at the loop test and
`props` the array `mb_properties`.  `nomatch` means the loop ended and the next
pattern is tried. -/
def EGline (cfg : Config) (B : Bundle) (props : List Nat) (buf : List Nat) (exact : Bool)
    (wfuel : Nat) : Nat → Nat → Outcome
  | 0, _ => .fuel
  | fuel + 1, cur =>
    if ¬ cur < buf.length then .nomatch
    else if exact then
      -- end = beg + size;
      match EGconfirm cfg B buf exact wfuel cur (cur + buf.length) with
      | some r => r
      | none => EGline cfg B props buf exact wfuel fuel (cur + buf.length)
    else
      match B.kwset with
      | some kwsexec =>
        -- offset = kwsexec (kwset, beg, buflim - beg, &kwsm);
        match kwsexec (buf.drop cur) with
        | none => .nomatch
        | some kwsm =>
          -- beg += offset;  end = memchr (beg, eol, buflim - beg);  end++;
          let p := cur + kwsm.offset
          match memchr (buf.drop p) cfg.eolbyte (buf.length - p) with
          | none => .undefined
          | some k =>
            let endp := p + k + 1
            let beg := rewind buf cfg.eolbyte p
            -- if (kwsm.index < kwset_exact_matches)
            --   if (MB_CUR_MAX == 1 || mb_properties[beg - buf] != 0) goto success;
            let exactHit : Option Bool :=
              if kwsm.index < B.kwset_exact_matches then
                if cfg.mb_cur_max = 1 then some true
                else (props.get? beg).map fun v => v != 0
              else some false
            match exactHit with
            | none => .undefined
            | some true => .found beg (endp - beg)
            | some false =>
              -- if (dfaexec (&dfa, beg, end - beg, &backref) == (size_t) -1) continue;
              match B.dfa (slice buf beg (endp - beg)) with
              | none => EGline cfg B props buf exact wfuel fuel endp
              | some (_, backref) =>
                if !backref then .found beg (endp - beg)
                else
                  match EGconfirm cfg B buf exact wfuel beg endp with
                  | some r => r
                  | none => EGline cfg B props buf exact wfuel fuel endp
      | none =>
        -- offset = dfaexec (&dfa, beg, buflim - beg, &backref);
        match B.dfa (buf.drop cur) with
        | none => .nomatch
        | some (offset, backref) =>
          let p := cur + offset
          match memchr (buf.drop p) cfg.eolbyte (buf.length - p) with
          | none => .undefined
          | some k =>
            let endp := p + k + 1
            let beg := rewind buf cfg.eolbyte p
            if !backref then .found beg (endp - beg)
            else
              match EGconfirm cfg B buf exact wfuel beg endp with
              | some r => r
              | none => EGline cfg B props buf exact wfuel fuel endp

/-- The array `mb_properties` as the pattern `B` sees it (lines 347-350): it is
computed when `MB_CUR_MAX > 1` and the pattern has a keyword set, and it is only
read on the keyword-set path. -/
def EGprops (cfg : Config) (B : Bundle) (buf : List Nat) : List Nat :=
  if 1 < cfg.mb_cur_max ∧ B.kwset.isSome then check_multibyte_string cfg buf else []

/-- `EGexecute (buf, size, match_size, exact)` over the array `patterns`
(`for (i = 0; i < pcount; i++)`, lines 345-470).  `wfuel` is the iteration
budget of the whole-word loop. -/
def EGexecute (cfg : Config) (patterns : List Bundle) (buf : List Nat) (exact : Bool)
    (wfuel : Nat) : Outcome :=
  match patterns with
  | [] => .nomatch
  | B :: rest =>
    match EGline cfg B (EGprops cfg B buf) buf exact wfuel (buf.length + 1) 0 with
    | .nomatch => EGexecute cfg rest buf exact wfuel
    | r => r

/-! ## The fixed-strings executor `Fexecute` -/

/-- The label `success` of `Fexecute` (lines 595-605) entered with `beg` and `len`. -/
def Fsuccess (cfg : Config) (buf : List Nat) (beg len : Nat) : Outcome :=
  -- end = memchr (beg + len, eol, (buf + size) - (beg + len));  end++;
  match memchr (buf.drop (beg + len)) cfg.eolbyte (buf.length - (beg + len)) with
  | none => .undefined
  | some k =>
    let endp := beg + len + k + 1
    -- while (buf < beg && beg[-1] != eol) --beg;
    let beg1 := rewind buf cfg.eolbyte beg
    .found beg1 (endp - beg1)

/-- The loop `for (try = beg; len; )` of the whole-word check of `Fexecute`
(lines 562-583) on the state `(try, len)`.  The result is `some r` when the
function returns `r` from inside the loop (the `return offset` of line 576 or
`goto success`) and `none` when the loop is left by `break` or by `len == 0`.
The first argument is the iteration budget. -/
def FwordLoop (cfg : Config) (kwsexec : List Nat → Option KwsMatch) (buf : List Nat)
    (beg : Nat) : Nat → Nat → Nat → Option Outcome
  | 0, _, _ => some .fuel
  | fuel + 1, try_, len =>
    if len = 0 then none
    else
      -- if (try > buf && WCHAR ((unsigned char) try[-1])) break;
      let c1 : Option Bool :=
        if 0 < try_ then (buf.get? (try_ - 1)).map WCHAR else some false
      match c1 with
      | none => some .undefined
      | some true => none
      | some false =>
        -- if (try + len < buf + size && WCHAR ((unsigned char) try[len]))
        let c2 : Option Bool :=
          if try_ + len < buf.length then (buf.get? (try_ + len)).map WCHAR else some false
        match c2 with
        | none => some .undefined
        | some true =>
          -- offset = kwsexec (kwset, beg, --len, &kwsmatch);
          match kwsexec (slice buf beg (len - 1)) with
          | none => some .nomatch
          | some m => FwordLoop cfg kwsexec buf beg fuel (beg + m.offset) m.size
        | some false => some (Fsuccess cfg buf beg len)

/-- The loop `for (beg = buf; beg <= buf + size; ++beg)` of `Fexecute`
(lines 526-586) for one pattern.  The result is `some r` when the function
returns `r` from inside the loop and `none` when the loop ends. -/
def Fline (cfg : Config) (kwsexec : List Nat → Option KwsMatch) (props : List Nat)
    (buf : List Nat) (exact : Bool) : Nat → Nat → Option Outcome
  | 0, _ => some .fuel
  | fuel + 1, beg =>
    if ¬ beg ≤ buf.length then none
    else
      -- offset = kwsexec (kwset, beg, buf + size - beg, &kwsmatch);
      match kwsexec (buf.drop beg) with
      | none => some .nomatch
      | some m =>
        -- if (MB_CUR_MAX > 1 && mb_properties[offset] == 0) continue;
        let skip : Option Bool :=
          if 1 < cfg.mb_cur_max then (props.get? m.offset).map fun v => v == 0 else some false
        match skip with
        | none => some .undefined
        | some true => Fline cfg kwsexec props buf exact fuel (beg + 1)
        | some false =>
          -- beg += offset;  len = kwsmatch.size[0];
          let hit := beg + m.offset
          let len := m.size
          if exact then some (.found hit len)
          else if cfg.match_lines then
            -- if (beg > buf && beg[-1] != eol) continue;
            if 0 < hit ∧ buf.getD (hit - 1) 0 ≠ cfg.eolbyte then
              Fline cfg kwsexec props buf exact fuel (hit + 1)
            -- if (beg + len < buf + size && beg[len] != eol) continue;
            else if hit + len < buf.length ∧ buf.getD (hit + len) 0 ≠ cfg.eolbyte then
              Fline cfg kwsexec props buf exact fuel (hit + 1)
            else some (Fsuccess cfg buf hit len)
          else if cfg.match_words then
            match FwordLoop cfg kwsexec buf hit (len + 1) hit len with
            | some r => some r
            | none => Fline cfg kwsexec props buf exact fuel (hit + 1)
          else some (Fsuccess cfg buf hit len)

/-- The loop `for (i = 0; i < pcount; i++)` of `Fexecute` and the final
`return -1`. -/
def FexecuteLoop (cfg : Config) (props : List Nat) (buf : List Nat) (exact : Bool) :
    List Bundle → Outcome
  | [] => .nomatch
  | B :: rest =>
    match B.kwset with
    | none => .undefined
    | some kwsexec =>
      match Fline cfg kwsexec props buf exact (buf.length + 2) 0 with
      | some r => r
      | none => FexecuteLoop cfg props buf exact rest

/-- `Fexecute (buf, size, match_size, exact)` over the array `patterns`. -/
def Fexecute (cfg : Config) (patterns : List Bundle) (buf : List Nat) (exact : Bool) : Outcome :=
  -- if (MB_CUR_MAX > 1) mb_properties = check_multibyte_string (buf, size);
  let props := if 1 < cfg.mb_cur_max then check_multibyte_string cfg buf else []
  FexecuteLoop cfg props buf exact patterns

/-! ## Engines for literal patterns

The engines themselves are outside `search.c`.  The definitions of this section
give the behaviour of the three engines on a pattern that is one literal string;
they are used to run the executors on concrete inputs. -/

/-- The offset of the leftmost occurrence of the string `w` in `text`. -/
def findLit (w : List Nat) : List Nat → Option Nat
  | [] => if w = [] then some 0 else none
  | b :: t => if w.isPrefixOf (b :: t) then some 0 else (findLit w t).map (· + 1)

/-- Modelled from the spec: the keyword-set engine (`kwset.c`) is not in
`search.c`.  Section 2 of the spec: "match any of a set of fixed byte strings in
a buffer, returning the first position and which string matched".  This is
`kwsexec` for the set that holds the one keyword `w` (index `0`). -/
def kwsexecLit (w : List Nat) (text : List Nat) : Option KwsMatch :=
  (findLit w text).map fun off => ⟨off, 0, w.length⟩

/-- Modelled from the spec: the DFA engine (`dfa.c`) is not in `search.c`.
Section 2 of the spec: "returning first match offset and a flag indicating
whether a backreference was encountered".  This is `dfaexec` for the literal
pattern `w`, which has no backreference. -/
def dfaexecLit (w : List Nat) (text : List Nat) : Option (Nat × Bool) :=
  (findLit w text).map fun off => (off, false)

/-- Modelled from the spec: the regex engine (`regex.c`) is not in `search.c`.
This is `re_search (.., text, size, start, range, ..)` for the literal pattern
`w`: the leftmost occurrence of `w` in `text` that starts in
`[start, start + range]`. -/
def re_searchLit (w : List Nat) (_not_eol : Bool) (text : List Nat) (start range : Nat) :
    Option ReMatch :=
  match findLit w (text.drop start) with
  | some off => if off ≤ range then some ⟨start + off, w.length⟩ else none
  | none => none

/-- Modelled from the spec: `re_match (.., text, size, start, ..)` for the
literal pattern `w`: the length of `w` when `w` occurs in `text` at `start`. -/
def re_matchLit (w : List Nat) (_not_eol : Bool) (text : List Nat) (start : Nat) : Option Nat :=
  if w.isPrefixOf (text.drop start) then some w.length else none

/-- The element of `patterns` for an alternative that is the literal string `w`:
its must list is the one exact must `w`, so `kwsmusts` builds a keyword set with
`kwset_exact_matches = 1`. -/
def litBundle (w : List Nat) : Bundle where
  kwset := some (kwsexecLit w)
  kwset_exact_matches := 1
  dfa := dfaexecLit w
  re_search := re_searchLit w
  re_match := re_matchLit w

/-- The element of `patterns` that `Fcompile` appends for the one keyword `w`:
only its keyword set is used by `Fexecute`. -/
def fixedBundle (w : List Nat) : Bundle where
  kwset := some (kwsexecLit w)
  kwset_exact_matches := 0
  dfa := fun _ => none
  re_search := fun _ _ _ _ => none
  re_match := fun _ _ _ => none

/-- The configuration of a run in the C locale with newline as terminator. -/
def cConfig : Config where
  match_icase := false
  match_words := false
  match_lines := false
  eolbyte := 10
  mb_cur_max := 1
  mbrlen := fun st _ => (.len 1, st)

/-- A decoder of a multibyte locale in which a byte below `0x80` is a character
of its own and a byte from `0x80` on starts a character of three bytes. -/
def mbrlen3 (st : Nat) (s : List Nat) : MbLen × Nat :=
  match s with
  | [] => (.incomplete, st)
  | b :: _ =>
    if b = 0 then (.len 0, st)
    else if b < 128 then (.len 1, st)
    else if s.length < 3 then (.incomplete, st)
    else (.len 3, st)

/-- The configuration of a run in that multibyte locale. -/
def mbConfig : Config where
  match_icase := false
  match_words := false
  match_lines := false
  eolbyte := 10
  mb_cur_max := 3
  mbrlen := mbrlen3

/-! ## The keyword set of the musts: `kwsmusts` -/

/-- One element of the list `dfa.musts` (`struct dfamust` of `dfa.h`): the flag
`exact` and the C string `must`, given by its bytes before the terminating NUL,
which are the `strlen (dm->must)` bytes that `kwsincr` receives. -/
structure DfaMust where
  exact : Bool
  must : List Nat
  deriving DecidableEq

/-- The fields of `struct patterns` that `kwsmusts` writes: `kwset`, given by the
keywords handed to `kwsincr` in order (`none` while the pointer is null), and
`kwset_exact_matches`. -/
structure KwsFields where
  kwset : Option (List (List Nat))
  kwset_exact_matches : Nat
  deriving DecidableEq

/-- The value of these fields in `patterns0`, the zero-initialised static that
`Gcompile` and `Ecompile` copy into a new element of `patterns`. -/
def patterns0 : KwsFields := ⟨none, 0⟩

/-- The first loop of `kwsmusts` (lines 121-128) over the list that starts at
`dm`, on the keywords inserted so far and the counter `kwset_exact_matches`. -/
def kwsmustsExact : List DfaMust → List (List Nat) × Nat → List (List Nat) × Nat
  | [], st => st
  | dm :: next, (kws, n) =>
    -- if (!dm->exact) continue;
    if !dm.exact then kwsmustsExact next (kws, n)
    -- ++(pats->kwset_exact_matches);  kwsincr (pats->kwset, dm->must, strlen (dm->must))
    else kwsmustsExact next (kws ++ [dm.must], n + 1)

/-- The second loop of `kwsmusts` (lines 131-137) on the keywords inserted so far. -/
def kwsmustsProbable : List DfaMust → List (List Nat) → List (List Nat)
  | [], kws => kws
  | dm :: next, kws =>
    -- if (dm->exact) continue;
    if dm.exact then kwsmustsProbable next kws
    else kwsmustsProbable next (kws ++ [dm.must])

/-- `kwsmusts (pats)` for the must list `musts` of `pats->dfa`: the new values of
the fields.  The failures of `kwsalloc`, `kwsincr` and `kwsprep`, which end the
process through `fatal`, are not modelled. -/
def kwsmusts (musts : List DfaMust) (pats : KwsFields) : KwsFields :=
  match musts with
  -- if (pats->dfa.musts)
  | [] => pats
  | _ :: _ =>
    -- kwsinit (&(pats->kwset));
    let st := kwsmustsExact musts ([], pats.kwset_exact_matches)
    ⟨some (kwsmustsProbable musts st.1), st.2⟩

/-! ## The buffer of the wrapped DFA pattern -/

/-- Lines 227-249 of `Gcompile` and 302-323 of `Ecompile` on the buffer `n`: the
bytes `n[0 .. i)` that become `motif` and `size` for `dfacomp`.  `junk i` is the
byte that `malloc` left at index `i`; the four strings are the literals
`line_beg`, `line_end`, `word_beg`, `word_end` of the function. -/
def wrapBuffer (line_beg line_end word_beg word_end : List Nat) (cfg : Config)
    (junk : Nat → Nat) (alt : List Nat) : Res (List Nat) :=
  if cfg.match_words || cfg.match_lines then
    -- char *n = malloc (sizeof word_beg - 1 + size + sizeof word_end);
    let n0 := (List.range (word_beg.length + alt.length + (word_end.length + 1))).map junk
    -- strcpy (n, match_lines ? line_beg : word_beg);
    (strcpy n0 0 (if cfg.match_lines then line_beg else word_beg)).bind fun n1 =>
    -- i = strlen (n);
    (strlen n1 0).bind fun i =>
    -- memcpy (n + i, motif, size);  i += size;
    (memcpy n1 i alt).bind fun n2 =>
    -- strcpy (n + i, match_lines ? line_end : word_end);
    (strcpy n2 (i + alt.length) (if cfg.match_lines then line_end else word_end)).bind fun n3 =>
    -- i += strlen (n + i);
    (strlen n3 (i + alt.length)).bind fun k =>
    -- motif = n;  size = i;
    .ok (slice n3 0 (i + alt.length + k))
  else .ok alt

/-! ## One round of the whole-word loop -/

/-- What one round of the loop `while (start >= 0)` does: it leaves the loop
with a result (as `EGwordLoop` gives it) or goes round again with new values of
`start` and `len`. -/
inductive WordStep where
  | exit (r : Option Outcome)
  | again (start len : Nat)
  deriving DecidableEq

/-- The body of the loop `while (start >= 0)` (lines 436-461) on the state
`(start, len)`, followed by the loop test. -/
def EGwordStep (B : Bundle) (buf : List Nat) (beg endp start len : Nat) : WordStep :=
  let L := endp - beg - 1
  let c1 : Option Bool :=
    if start = 0 then some true else (buf.get? (beg + start - 1)).map fun c => !WCHAR c
  match c1 with
  | none => .exit (some .undefined)
  | some b1 =>
    let c2 : Option Bool :=
      if !b1 then some false
      else if len = L then some true
      else (buf.get? (beg + start + len)).map fun c => !WCHAR c
    match c2 with
    | none => .exit (some .undefined)
    | some true => .exit (some (.found beg (endp - beg)))
    | some false =>
      let len1 : Option Nat :=
        if 0 < len then B.re_match true (slice buf beg (start + (len - 1))) start
        else some len
      match len1 with
      | some (l + 1) => .again start (l + 1)
      | _ =>
        if start = L then .exit none
        else
          match B.re_search false (slice buf beg L) (start + 1) (L - (start + 1)) with
          | none => .exit none
          | some m => .again m.start m.len

/-- The element of `patterns` for a pattern with a backreference such as
`\(a\)\1`: it has no keyword set, its DFA is the prefilter that finds an `a`
and reports a backreference, and its regex matches the string `aa`. -/
def backrefBundle : Bundle where
  kwset := none
  kwset_exact_matches := 0
  dfa := fun text => (findLit [97] text).map fun off => (off, true)
  re_search := re_searchLit [97, 97]
  re_match := re_matchLit [97, 97]

/-! ## Definitions used to state the properties -/

/-- The region `buf[o .. o+l)` is one whole line with its terminator `eol`. -/
def WholeLine (buf : List Nat) (eol o l : Nat) : Prop :=
  1 ≤ l ∧ o + l ≤ buf.length ∧ (o = 0 ∨ buf[o - 1]? = some eol) ∧
    buf[o + l - 1]? = some eol ∧ ∀ j, o ≤ j → j < o + l - 1 → buf[j]? ≠ some eol

/-- The pattern blob without one trailing newline byte. -/
def stripNewline (motif : List Nat) : List Nat :=
  if motif.getLast? = some 10 then motif.dropLast else motif

/-- The buffer `re` has `L` bytes and starts with the bytes `out`. -/
def Holds (L : Nat) (re out : List Nat) : Prop :=
  re.length = L ∧ ∃ t, re = out ++ t

/-- The opening that `Pcompile` leaves at the start of `re` (lines 635-640): the
second `strcpy` overwrites the first. -/
def PcompileHead (cfg : Config) : List Nat :=
  if cfg.match_words then [92, 98, 40] else if cfg.match_lines then [94, 40] else []

/-- The closing that `Pcompile` leaves after the pattern (lines 663-667): the
second `strcpy` overwrites the first. -/
def PcompileTail (cfg : Config) : List Nat :=
  if cfg.match_lines then [41, 36] else if cfg.match_words then [41, 92, 98] else []

/-- The bytes `c` are one character for the decoder of `cfg`, whatever the
conversion state: `mbrlen` reports `c.length` on the whole of `c` (or rejects a
single byte as invalid) and reports an incomplete character on every proper
prefix of `c`. -/
def IsChar (cfg : Config) (c : List Nat) : Prop :=
  c ≠ [] ∧
    (∀ st, (cfg.mbrlen st c).1 = .len c.length ∨
      (c.length = 1 ∧ (cfg.mbrlen st c).1 = .invalid)) ∧
    ∀ st j, 0 < j → j < c.length → (cfg.mbrlen st (c.take j)).1 = .incomplete

/-- The properties that `check_multibyte_string` gives to the bytes of one
character: `1` for a single byte, `0` for every byte of a longer character. -/
def charProps (c : List Nat) : List Nat :=
  if c.length = 1 then [1] else List.replicate c.length 0

/-- The span `(s, n)` is a result of the regex engine of `B` on the text `line`:
of a search over `line` or of an anchored match over a prefix of `line`. -/
def RegexSpan (B : Bundle) (line : List Nat) (s n : Nat) : Prop :=
  (∃ start range, B.re_search false line start range = some ⟨s, n⟩) ∨
    ∃ lim, B.re_match true (line.take lim) s = some n

/-- The span `(s, n)` of the line that starts at `beg` and has `L` bytes before
its terminator stands between word boundaries: it starts the line or the byte
before it is not a word constituent, and it ends the line or the byte after it
is not a word constituent. -/
def WordBounded (buf : List Nat) (beg L s n : Nat) : Prop :=
  (s = 0 ∨ ∃ c, buf.get? (beg + s - 1) = some c ∧ WCHAR c = false) ∧
    (s + n = L ∨ ∃ c, buf.get? (beg + s + n) = some c ∧ WCHAR c = false)

/-- The DFA pattern text as the spec words it: whole-line wraps the alternative
in `line_beg` and `line_end` whether or not whole-word is set, whole-word alone
wraps it in `word_beg` and `word_end`, and with neither flag it is the
alternative itself. -/
def wrappedText (line_beg line_end word_beg word_end : List Nat) (cfg : Config)
    (alt : List Nat) : List Nat :=
  if cfg.match_lines then line_beg ++ alt ++ line_end
  else if cfg.match_words then word_beg ++ alt ++ word_end
  else alt

/-- What the spec asks of a line `buf[beg .. endp)` accepted in whole-word mode:
some span `(s, n)` that the regex engine returned lies within the line content
`buf[beg .. endp-1)`, stands between word boundaries, and when it ends the line
content the byte after it is the line terminator. -/
def AcceptedSpan (cfg : Config) (B : Bundle) (buf : List Nat) (beg endp : Nat) : Prop :=
  ∃ s n, RegexSpan B (slice buf beg (endp - beg - 1)) s n ∧ s + n ≤ endp - beg - 1 ∧
    WordBounded buf beg (endp - beg - 1) s n ∧
    (s + n = endp - beg - 1 → buf.get? (beg + s + n) = some cfg.eolbyte)

/-! ## Facts about the C library helpers -/

theorem memchr_some {s : List Nat} {c n k : Nat} (h : memchr s c n = some k) :
    k < n ∧ s[k]? = some c ∧ ∀ j, j < k → s[j]? ≠ some c := by
  induction s generalizing n k with
  | nil => cases n <;> simp [memchr] at h
  | cons b s ih =>
    cases n with
    | zero => simp [memchr] at h
    | succ n =>
      simp only [memchr] at h
      split at h
      · rename_i hb
        simp only [Option.some.injEq] at h
        subst h
        subst hb
        simp
      · rename_i hb
        cases hm : memchr s c n with
        | none => simp [hm] at h
        | some k1 =>
          simp only [hm, Option.map_some', Option.some.injEq] at h
          subst h
          obtain ⟨h1, h2, h3⟩ := ih hm
          refine ⟨by omega, by simpa using h2, ?_⟩
          intro j hj
          cases j with
          | zero => simpa using hb
          | succ j => simpa using h3 j (by omega)

theorem rewind_le (buf : List Nat) (eol p : Nat) : rewind buf eol p ≤ p := by
  induction p with
  | zero => simp [rewind]
  | succ p ih =>
    simp only [rewind]
    split
    · omega
    · omega

theorem rewind_start (buf : List Nat) (eol p : Nat) (hp : p ≤ buf.length) :
    rewind buf eol p = 0 ∨ buf[rewind buf eol p - 1]? = some eol := by
  induction p with
  | zero => simp [rewind]
  | succ p ih =>
    simp only [rewind]
    split
    · exact ih (by omega)
    · rename_i hb
      right
      have hlt : p < buf.length := by omega
      simp only [ne_eq, Decidable.not_not] at hb
      simp [List.getD_eq_getElem?_getD, List.getElem?_eq_getElem hlt] at hb ⊢
      simpa [List.getElem?_eq_getElem hlt] using hb

theorem rewind_clear (buf : List Nat) (eol p : Nat) :
    ∀ j, rewind buf eol p ≤ j → j < p → buf[j]? ≠ some eol := by
  induction p with
  | zero => intro j _ hj; omega
  | succ p ih =>
    intro j h1 h2
    simp only [rewind] at h1
    split at h1
    · rename_i hb
      by_cases hjp : j = p
      · subst hjp
        intro hc
        apply hb
        simp [List.getD_eq_getElem?_getD, hc]
      · exact ih j h1 (by omega)
    · omega

theorem narrow_wholeLine {buf : List Nat} {eol p k : Nat}
    (h : memchr (buf.drop p) eol (buf.length - p) = some k) :
    WholeLine buf eol (rewind buf eol p) (p + k + 1 - rewind buf eol p) := by
  obtain ⟨h1, h2, h3⟩ := memchr_some h
  have hle := rewind_le buf eol p
  have h2' : buf[p + k]? = some eol := by simpa using h2
  refine ⟨by omega, by omega, rewind_start buf eol p (by omega), ?_, ?_⟩
  · have : rewind buf eol p + (p + k + 1 - rewind buf eol p) - 1 = p + k := by omega
    rw [this]; exact h2'
  · intro j hj1 hj2
    by_cases hjp : j < p
    · exact rewind_clear buf eol p j hj1 hjp
    · have := h3 (j - p) (by omega)
      have e : p + (j - p) = j := by omega
      simpa [e] using this

theorem EGwordLoop_found {B : Bundle} {buf : List Nat} {beg endp : Nat} (fuel start len : Nat)
    {o l : Nat} (h : EGwordLoop B buf beg endp fuel start len = some (.found o l)) :
    o = beg ∧ l = endp - beg := by
  induction fuel generalizing start len with
  | zero => simp [EGwordLoop] at h
  | succ fuel ih =>
    simp only [EGwordLoop] at h
    split at h
    · simp at h
    · split at h
      · simp at h
      · simp only [Option.some.injEq, Outcome.found.injEq] at h
        omega
      · split at h
        · exact ih _ _ h
        · split at h
          · simp at h
          · split at h
            · simp at h
            · exact ih _ _ h

theorem EGconfirm_found {cfg : Config} {B : Bundle} {buf : List Nat} {wfuel beg endp o l : Nat}
    (h : EGconfirm cfg B buf false wfuel beg endp = some (.found o l)) :
    o = beg ∧ l = endp - beg := by
  simp only [EGconfirm] at h
  split at h
  · simp at h
  · simp only [Bool.false_eq_true, if_false] at h
    split at h
    · simp only [Option.some.injEq, Outcome.found.injEq] at h
      omega
    · split at h
      · exact EGwordLoop_found _ _ _ h
      · simp at h

theorem EGline_found {cfg : Config} {B : Bundle} {props buf : List Nat} {wfuel : Nat}
    (fuel cur : Nat) {o l : Nat}
    (h : EGline cfg B props buf false wfuel fuel cur = .found o l) :
    WholeLine buf cfg.eolbyte o l := by
  induction fuel generalizing cur with
  | zero => simp [EGline] at h
  | succ fuel ih =>
    simp only [EGline] at h
    split at h
    · simp at h
    · simp only [Bool.false_eq_true, if_false] at h
      split at h
      · -- keyword-set path
        split at h
        · simp at h
        · split at h
          · simp at h
          · rename_i k hk
            split at h
            · simp at h
            · simp only [Outcome.found.injEq] at h
              obtain ⟨rfl, rfl⟩ := h
              exact narrow_wholeLine hk
            · split at h
              · exact ih _ h
              · split at h
                · simp only [Outcome.found.injEq] at h
                  obtain ⟨rfl, rfl⟩ := h
                  exact narrow_wholeLine hk
                · split at h
                  · rename_i r hr
                    subst h
                    obtain ⟨rfl, rfl⟩ := EGconfirm_found hr
                    exact narrow_wholeLine hk
                  · exact ih _ h
      · -- DFA-only path
        split at h
        · simp at h
        · split at h
          · simp at h
          · rename_i k hk
            split at h
            · simp only [Outcome.found.injEq] at h
              obtain ⟨rfl, rfl⟩ := h
              exact narrow_wholeLine hk
            · split at h
              · rename_i r hr
                subst h
                obtain ⟨rfl, rfl⟩ := EGconfirm_found hr
                exact narrow_wholeLine hk
              · exact ih _ h

theorem FcompileScan_eq (motif : List Nat) (fuel lim : Nat) (h : motif.length - lim ≤ fuel) :
    FcompileScan motif motif.length fuel lim =
      lim + ((motif.drop lim).takeWhile fun b => !(b == 10)).length := by
  induction fuel generalizing lim with
  | zero =>
    have : motif.drop lim = [] := List.drop_eq_nil_of_le (by omega)
    simp [FcompileScan, this]
  | succ fuel ih =>
    simp only [FcompileScan]
    by_cases hlt : lim < motif.length
    · have hd : motif.drop lim = motif[lim] :: motif.drop (lim + 1) := by
        simp
      by_cases hb : motif[lim] = 10
      · have : ¬ (lim < motif.length ∧ motif.getD lim 0 ≠ 10) := by
          simp [List.getD_eq_getElem?_getD, List.getElem?_eq_getElem hlt, hb]
        have hbb : (!(motif[lim] == 10)) = false := by simp [hb]
        rw [if_neg this, hd]
        simp only [List.takeWhile_cons, hbb, Bool.false_eq_true, if_false, List.length_nil,
          Nat.add_zero]
      · have : lim < motif.length ∧ motif.getD lim 0 ≠ 10 := by
          simp [List.getD_eq_getElem?_getD, List.getElem?_eq_getElem hlt, hb, hlt]
        have hbb : (!(motif[lim] == 10)) = true := by simp [hb]
        rw [if_pos this, ih (lim + 1) (by omega), hd]
        simp only [List.takeWhile_cons, hbb, if_true, List.length_cons]
        omega
    · have hnil : motif.drop lim = [] := List.drop_eq_nil_of_le (by omega)
      have : ¬ (lim < motif.length ∧ motif.getD lim 0 ≠ 10) := by
        intro h; exact hlt h.1
      rw [if_neg this, hnil]
      simp

theorem splitOn_strip_single (w : List Nat) (hw : 10 ∉ w) :
    (stripNewline w).splitOn 10 = [w] := by
  have hlast : w.getLast? ≠ some 10 := by
    intro h
    exact hw (List.mem_of_getLast?_eq_some h)
  simp only [stripNewline, if_neg hlast, List.splitOn]
  apply List.splitOnP_eq_single
  intro x hx hx10
  simp only [beq_iff_eq] at hx10
  exact hw (hx10 ▸ hx)

theorem splitOn_strip_last (w : List Nat) (hw : 10 ∉ w) :
    (stripNewline (w ++ [10])).splitOn 10 = [w] := by
  have hlast : (w ++ [10]).getLast? = some 10 := by simp
  simp only [stripNewline, if_pos hlast, List.dropLast_concat, List.splitOn]
  apply List.splitOnP_eq_single
  intro x hx hx10
  simp only [beq_iff_eq] at hx10
  exact hw (hx10 ▸ hx)

theorem stripNewline_append (w r : List Nat) (hr : r ≠ []) :
    stripNewline (w ++ 10 :: r) = w ++ 10 :: stripNewline r := by
  have h1 : (w ++ 10 :: r).getLast? = r.getLast? := by
    rw [List.getLast?_append_of_ne_nil _ (by simp)]
    cases r with
    | nil => exact absurd rfl hr
    | cons a r => simp [List.getLast?_cons_cons]
  have h2 : (w ++ 10 :: r).dropLast = w ++ 10 :: r.dropLast := by
    rw [List.dropLast_append_of_ne_nil _ (by simp)]
    cases r with
    | nil => exact absurd rfl hr
    | cons a r => simp [List.dropLast]
  simp only [stripNewline, h1, h2]
  split <;> rfl

theorem splitOn_strip_cons (w r : List Nat) (hw : 10 ∉ w) (hr : r ≠ []) :
    (stripNewline (w ++ 10 :: r)).splitOn 10 = w :: (stripNewline r).splitOn 10 := by
  rw [stripNewline_append w r hr]
  simp only [List.splitOn]
  apply List.splitOnP_first
  · intro x hx hx10
    simp only [beq_iff_eq] at hx10
    exact hw (hx10 ▸ hx)
  · simp

theorem FcompileLoop_eq (motif : List Nat) (fuel beg : Nat) (kws : List (List Nat))
    (hfuel : motif.length - beg < fuel) (hbeg : beg ≤ motif.length) :
    FcompileLoop motif motif.length fuel beg kws =
      .ok (kws ++ (stripNewline (motif.drop beg)).splitOn 10) := by
  induction fuel generalizing beg kws with
  | zero => omega
  | succ fuel ih =>
    simp only [FcompileLoop]
    rw [FcompileScan_eq motif _ beg (le_refl _)]
    generalize hrest : motif.drop beg = rest
    have hlen : rest.length = motif.length - beg := by rw [← hrest]; simp
    have hsplit := List.takeWhile_append_dropWhile (fun b => !(b == 10)) rest
    generalize hw : rest.takeWhile (fun b => !(b == 10)) = w at hsplit
    generalize hd : rest.dropWhile (fun b => !(b == 10)) = d at hsplit
    have hw10 : 10 ∉ w := by
      intro hmem
      rw [← hw] at hmem
      have := List.mem_takeWhile_imp hmem
      simp at this
    have hword : slice motif beg (beg + w.length - beg) = w := by
      simp only [slice, hrest, Nat.add_sub_cancel_left]
      rw [← hsplit]
      simp
    rw [hword]
    cases d with
    | nil =>
      have hrw : rest = w := by simpa using hsplit.symm
      have hl : w.length = motif.length - beg := by rw [← hrw]; exact hlen
      have hnot : ¬ beg + w.length < motif.length := by omega
      simp only [hnot, if_false]
      rw [hrw, splitOn_strip_single w hw10]
    | cons d0 r =>
      have hd0 : d0 = 10 := by
        have h := List.head_dropWhile_not (fun b => !(b == 10)) rest (by rw [hd]; simp)
        simp only [hd, List.head_cons] at h
        simpa using h
      subst hd0
      have hl : w.length + (r.length + 1) = motif.length - beg := by
        rw [← hlen, ← hsplit]; simp
      have hlt : beg + w.length < motif.length := by omega
      simp only [hlt, if_true]
      by_cases hr : r = []
      · subst hr
        have hnot : ¬ beg + w.length + 1 < motif.length := by
          simp at hl; omega
        rw [if_neg hnot, ← hsplit, splitOn_strip_last w hw10]
      · have hrpos : 0 < r.length := List.length_pos.mpr hr
        have hlt2 : beg + w.length + 1 < motif.length := by omega
        rw [if_pos hlt2, ih (beg + w.length + 1) _ (by omega) (by omega)]
        have hdrop : motif.drop (beg + w.length + 1) = r := by
          rw [show beg + w.length + 1 = beg + (w.length + 1) by omega, ← List.drop_drop, hrest,
            ← hsplit]
          simp
        rw [hdrop, ← hsplit, splitOn_strip_cons w r hw10 hr]
        simp

/-! ## Facts about `Gcompile` -/

theorem GcompileLoop_length (cfg : Config) (mem : List Nat) (fuel motif total : Nat)
    (acc r : List PatSrc) (h : GcompileLoop cfg mem fuel motif total acc = .ok r) :
    acc.length < r.length := by
  induction fuel generalizing motif total acc with
  | zero => simp [GcompileLoop] at h
  | succ fuel ih =>
    simp only [GcompileLoop] at h
    cases hm : memchrMem mem motif 10 (total + 1) with
    | fault e => simp [hm, Res.bind] at h
    | ok sep =>
      simp only [hm, Res.bind] at h
      split at h
      · simp at h
      · cases sep with
        | none =>
          simp only [Res.ok.injEq] at h
          subst h
          simp
        | some s =>
          simp only at h
          split at h
          · have := ih _ _ _ h
            simp at this
            omega
          · simp only [Res.ok.injEq] at h
            subst h
            simp

theorem GcompileLoop_step (cfg : Config) (mem : List Nat) (fuel motif total s : Nat)
    (acc : List PatSrc) (hm : memchrMem mem motif 10 (total + 1) = .ok (some s))
    (hlen : motif + (s - motif) ≤ mem.length) (hnz : total - (s - motif) ≠ 0) :
    GcompileLoop cfg mem (fuel + 1) motif total acc =
      GcompileLoop cfg mem fuel (s + 1) (total - (s - motif))
        (acc ++ [⟨slice mem motif (s - motif),
          wrapDfa cfg G_line_beg G_line_end G_word_beg G_word_end (slice mem motif (s - motif))⟩]) := by
  simp only [GcompileLoop, hm, Res.bind]
  rw [if_neg (by omega), if_pos hnz]

theorem memchrMem_append (A pre rest : List Nat) (c n : Nat) (hpre : c ∉ pre)
    (hn : pre.length < n) :
    memchrMem (A ++ pre ++ c :: rest) A.length c n = .ok (some (A.length + pre.length)) := by
  induction pre generalizing A n with
  | nil =>
    cases n with
    | zero => simp at hn
    | succ n => simp [memchrMem]
  | cons b pre ih =>
    cases n with
    | zero => simp at hn
    | succ n =>
      simp only [List.mem_cons, not_or] at hpre
      have hb : b ≠ c := fun h => hpre.1 h.symm
      have hdrop : (A ++ (b :: pre) ++ c :: rest).drop A.length = b :: (pre ++ c :: rest) := by
        simp
      have hmem : A ++ (b :: pre) ++ c :: rest = (A ++ [b]) ++ pre ++ c :: rest := by simp
      simp only [memchrMem, hdrop, if_neg hb]
      rw [hmem]
      have := ih (A ++ [b]) n hpre.2 (by simpa using hn)
      simp only [List.length_append, List.length_singleton] at this
      rw [this]
      simp only [List.length_cons]
      congr 2
      omega

/-! ## Facts about the buffer of `Pcompile` -/

theorem memchr_split {s : List Nat} {c n k : Nat} (h : memchr s c n = some k) :
    ∃ rest, s = s.take k ++ c :: rest ∧ c ∉ s.take k ∧ (s.take k).length = k := by
  obtain ⟨_, h2, h3⟩ := memchr_some h
  have hk : k < s.length := by
    by_contra hc
    rw [List.getElem?_eq_none (by omega)] at h2
    simp at h2
  refine ⟨s.drop (k + 1), ?_, ?_, ?_⟩
  · have hc : s[k] = c := by
      rw [List.getElem?_eq_getElem hk] at h2
      simpa using h2
    conv_lhs => rw [← List.take_append_drop k s]
    rw [← hc]
    simp
  · intro hmem
    obtain ⟨j, hj, hjc⟩ := List.getElem_of_mem hmem
    have hjk : j < k := by
      simp at hj; omega
    apply h3 j hjk
    rw [List.getElem_take] at hjc
    rw [List.getElem?_eq_getElem (by omega), hjc]
  · simp; omega

theorem memchr_none {s : List Nat} {c n : Nat} (h : memchr s c n = none) (hn : s.length ≤ n) :
    c ∉ s := by
  induction s generalizing n with
  | nil => simp
  | cons b s ih =>
    cases n with
    | zero => simp at hn
    | succ n =>
      simp only [memchr] at h
      split at h
      · simp at h
      · rename_i hb
        simp only [Option.map_eq_none'] at h
        have := ih h (by simpa using hn)
        simp only [List.mem_cons, not_or]
        exact ⟨fun hc => hb hc.symm, this⟩

theorem memchr_append {pre rest : List Nat} {c n : Nat} (hpre : c ∉ pre) (hn : pre.length < n) :
    memchr (pre ++ c :: rest) c n = some pre.length := by
  induction pre generalizing n with
  | nil =>
    cases n with
    | zero => omega
    | succ n => simp [memchr]
  | cons b pre ih =>
    cases n with
    | zero => omega
    | succ n =>
      simp only [List.mem_cons, not_or] at hpre
      have hb : b ≠ c := fun h => hpre.1 h.symm
      have e := ih (n := n) hpre.2 (by simpa using hn)
      simp only [List.cons_append, memchr, if_neg hb, List.length_cons, List.append_eq, e,
        Option.map_some']

theorem memcpy_holds {L : Nat} {re pre : List Nat} (bs : List Nat) (h : Holds L re pre)
    (hlen : pre.length + bs.length ≤ L) :
    ∃ re1, memcpy re pre.length bs = .ok re1 ∧ Holds L re1 (pre ++ bs) := by
  obtain ⟨hL, t, rfl⟩ := h
  refine ⟨pre ++ bs ++ (pre ++ t).drop (pre.length + bs.length), ?_, ?_, _, rfl⟩
  · simp only [memcpy]
    rw [if_pos (by omega)]
    simp
  · simp only [List.length_append, List.length_drop] at hL ⊢
    omega

theorem store_holds {L : Nat} {re pre : List Nat} (v : Nat) (h : Holds L re pre)
    (hlen : pre.length < L) :
    ∃ re1, store re pre.length v = .ok re1 ∧ Holds L re1 (pre ++ [v]) := by
  obtain ⟨re1, h1, h2⟩ := memcpy_holds [v] h (by simpa using hlen)
  refine ⟨re1, ?_, h2⟩
  rw [← h1]
  simp only [store, memcpy, List.length_singleton, List.set_eq_take_append_cons_drop]
  have : pre.length < re.length := by rw [h.1]; exact hlen
  rw [if_pos this, if_pos this, if_pos (by omega)]
  simp

theorem Holds.weaken {L : Nat} {re out : List Nat} (out1 x : List Nat) (h : Holds L re out)
    (hx : out = out1 ++ x) : Holds L re out1 := by
  obtain ⟨hL, t, rfl⟩ := h
  exact ⟨hL, x ++ t, by rw [hx]; simp⟩

theorem strlen_holds {L : Nat} {re text : List Nat} (h : Holds L re (text ++ [0]))
    (h0 : 0 ∉ text) : strlen re 0 = .ok text.length := by
  obtain ⟨hL, t, rfl⟩ := h
  simp only [strlen, List.drop_zero, Nat.sub_zero]
  rw [show text ++ [0] ++ t = text ++ 0 :: t by simp, memchr_append h0 (by simp)]

theorem cstring_holds {L : Nat} {re text : List Nat} (h : Holds L re (text ++ [0]))
    (h0 : 0 ∉ text) : cstring re = .ok text := by
  obtain ⟨hL, t, rfl⟩ := h
  simp only [cstring]
  rw [show text ++ [0] ++ t = text ++ 0 :: t by simp, memchr_append h0 (by simp)]
  simp

/-! ## Facts about the NUL encoding -/

theorem trailingBackslashes_nil : trailingBackslashes [] = 0 := rfl

theorem trailingBackslashes_concat (l : List Nat) (b : Nat) :
    trailingBackslashes (l ++ [b]) = if b = 92 then trailingBackslashes l + 1 else 0 := by
  simp only [trailingBackslashes, List.reverse_append, List.reverse_cons, List.reverse_nil,
    List.nil_append, List.singleton_append, List.takeWhile_cons]
  by_cases hb : b = 92 <;> simp [hb]

theorem trailingBackslashes_append_nulEscape (l : List Nat) :
    trailingBackslashes (l ++ nulEscape) = 0 := by
  have : l ++ nulEscape = (l ++ [92, 48, 48]) ++ [48] := by simp [nulEscape]
  rw [this, trailingBackslashes_concat]
  simp

theorem backslashScan_le (pattern : List Nat) (p : Nat) : backslashScan pattern p ≤ p := by
  induction p with
  | zero => simp [backslashScan]
  | succ p ih =>
    simp only [backslashScan]
    split <;> omega

theorem backslashScan_eq (pattern : List Nat) (p : Nat) (hp : p ≤ pattern.length) :
    p - backslashScan pattern p = trailingBackslashes (pattern.take p) := by
  induction p with
  | zero => simp [backslashScan, trailingBackslashes]
  | succ p ih =>
    have hlt : p < pattern.length := by omega
    have htake : pattern.take (p + 1) = pattern.take p ++ [pattern[p]] := by
      rw [List.take_succ, List.getElem?_eq_getElem hlt]
      rfl
    have hget : pattern.getD p 0 = pattern[p] := by
      simp [List.getD_eq_getElem?_getD, List.getElem?_eq_getElem hlt]
    have hle := backslashScan_le pattern p
    rw [htake, trailingBackslashes_concat]
    simp only [backslashScan, hget]
    by_cases hb : pattern[p] = 92
    · rw [if_pos hb, if_pos hb, ← ih (by omega)]
      omega
    · rw [if_neg hb, if_neg hb]
      omega

theorem encodeFrom_no_nul (before l : List Nat) (h0 : 0 ∉ l) : encodeFrom before l = l := by
  induction l generalizing before with
  | nil => rfl
  | cons b l ih =>
    simp only [List.mem_cons, not_or] at h0
    have hb : b ≠ 0 := fun h => h0.1 h.symm
    have hnext : l.head? ≠ some 0 := by
      intro h
      exact h0.2 (List.mem_of_mem_head? h)
    simp only [encodeFrom, encodePiece, if_neg hb, hnext, false_and, and_false, if_false,
      ih _ h0.2, List.singleton_append]

theorem encodeFrom_not_mem_zero (before l : List Nat) : 0 ∉ encodeFrom before l := by
  induction l generalizing before with
  | nil => simp [encodeFrom]
  | cons b l ih =>
    simp only [encodeFrom, List.mem_append, not_or]
    refine ⟨?_, ih _⟩
    simp only [encodePiece]
    split
    · simp [nulEscape]
    · rename_i hb
      split
      · simp
      · simp only [List.mem_singleton]
        exact fun h => hb h.symm

theorem encodeFrom_segment (before seg rest : List Nat) (h0 : 0 ∉ seg) :
    encodeFrom before (seg ++ 0 :: rest) =
      (if trailingBackslashes (before ++ seg) % 2 = 1 ∧ seg ≠ [] then seg.dropLast else seg) ++
        nulEscape ++ encodeFrom (before ++ seg ++ [0]) rest := by
  induction seg generalizing before with
  | nil => simp [encodeFrom, encodePiece]
  | cons b seg ih =>
    simp only [List.mem_cons, not_or] at h0
    have hb : b ≠ 0 := fun h => h0.1 h.symm
    cases seg with
    | nil =>
      have e : before ++ [b] = before ++ [b] := rfl
      simp only [List.nil_append, List.cons_append, encodeFrom, encodePiece, if_neg hb,
        List.head?_cons, true_and, trailingBackslashes_concat, if_true, List.append_nil,
        List.append_assoc, List.singleton_append, ne_eq, List.cons_ne_self, not_false_eq_true,
        and_true, List.dropLast_single, reduceCtorEq]
      by_cases h92 : b = 92
      · subst h92
        simp only [if_true, true_and]
        by_cases hodd : (trailingBackslashes before + 1) % 2 = 1
        · simp [hodd]
        · simp [hodd]
      · simp [h92]
    | cons b2 seg =>
      have hb2 : b2 ≠ 0 := by
        intro h
        exact h0.2 (by simp [h])
      have hnext : (some b2 = some 0) = False := by simp [hb2]
      have := ih (before ++ [b]) h0.2
      simp only [List.cons_append, List.append_assoc, List.singleton_append] at this ⊢
      simp only [encodeFrom, encodePiece, if_neg hb, List.head?_cons, hnext, false_and,
        and_false, if_false, List.singleton_append] at this ⊢
      rw [this]
      by_cases hc : trailingBackslashes (before ++ b :: b2 :: seg) % 2 = 1 <;> simp [hc]

theorem encodeFrom_before_nul (l before X : List Nat) :
    ∃ out, (∀ post, encodeFrom before (l ++ 0 :: post) =
        out ++ nulEscape ++ encodeFrom (before ++ l ++ [0]) post) ∧
      (((l ++ [0]).head? ≠ some 0 → trailingBackslashes X = trailingBackslashes before) →
        (l = [] → trailingBackslashes X % 2 = 0) → trailingBackslashes (X ++ out) % 2 = 0) := by
  induction l generalizing before X with
  | nil =>
    refine ⟨[], ?_, ?_⟩
    · intro post
      simp [encodeFrom, encodePiece]
    · intro _ h2
      simpa using h2 rfl
  | cons b l ih =>
    obtain ⟨out1, hout1, heven1⟩ :=
      ih (before ++ [b]) (X ++ encodePiece before b (l ++ [0]).head?)
    have hhead : ∀ post : List Nat, (l ++ 0 :: post).head? = (l ++ [0]).head? := by
      intro post
      cases l <;> simp
    refine ⟨encodePiece before b (l ++ [0]).head? ++ out1, ?_, ?_⟩
    · intro post
      simp only [List.cons_append, encodeFrom, List.append_eq]
      rw [hhead post, hout1 post]
      simp
    · intro h1 _
      rw [← List.append_assoc]
      apply heven1
      · intro hnext
        by_cases hb : b = 0
        · subst hb
          simp only [encodePiece, if_true, trailingBackslashes_append_nulEscape,
            trailingBackslashes_concat]
          simp
        · have hX := h1 (by simpa using hb)
          have hpiece : encodePiece before b (l ++ [0]).head? = [b] := by
            simp only [encodePiece, if_neg hb]
            rw [if_neg]
            intro hc
            exact hnext hc.2.1
          rw [hpiece, trailingBackslashes_concat, trailingBackslashes_concat, hX]
      · intro hl
        subst hl
        simp only [List.nil_append, List.head?_cons]
        by_cases hb : b = 0
        · subst hb
          simp only [encodePiece, if_true, trailingBackslashes_append_nulEscape]
        · have hX := h1 (by simpa using hb)
          by_cases h92 : b = 92
          · subst h92
            by_cases hodd : (trailingBackslashes before + 1) % 2 = 1
            · have hpiece : encodePiece before 92 (some 0) = [] := by
                simp [encodePiece, hodd]
              rw [hpiece, List.append_nil, hX]
              omega
            · have hpiece : encodePiece before 92 (some 0) = [92] := by
                simp [encodePiece, hodd]
              rw [hpiece, trailingBackslashes_concat, if_pos rfl, hX]
              omega
          · have hpiece : encodePiece before b (some 0) = [b] := by
              simp [encodePiece, hb, h92]
            rw [hpiece, trailingBackslashes_concat, if_neg h92]

/-! ## The loop of `Pcompile` -/

theorem PcompileLoop_holds (pattern : List Nat) (L : Nat) (fuel p : Nat) (re out : List Nat)
    (hre : Holds L re out) (hp : p ≤ pattern.length) (hfuel : pattern.length - p < fuel)
    (hroom : out.length + 4 * (pattern.length - p) + 4 ≤ L)
    (hinv : p = 0 ∨ pattern[p - 1]? = some 0) :
    ∃ p1 re1 out1, PcompileLoop pattern fuel p re out.length = .ok (p1, re1, out1.length) ∧
      Holds L re1 out1 ∧ p1 ≤ pattern.length ∧ out1.length + (pattern.length - p1) + 4 ≤ L ∧
      out1 ++ pattern.drop p1 = out ++ encodeFrom (pattern.take p) (pattern.drop p) := by
  induction fuel generalizing p re out with
  | zero => omega
  | succ fuel ih =>
    simp only [PcompileLoop]
    cases hm : memchr (pattern.drop p) 0 (pattern.length - p) with
    | none =>
      have h0 : 0 ∉ pattern.drop p := memchr_none hm (by simp)
      refine ⟨p, re, out, rfl, hre, hp, by omega, ?_⟩
      rw [encodeFrom_no_nul _ _ h0]
    | some k =>
      obtain ⟨hk, hk0, _⟩ := memchr_some hm
      obtain ⟨rest, hsplit, hseg0, hseglen⟩ := memchr_split hm
      generalize hseg : (pattern.drop p).take k = seg at hsplit hseg0 hseglen
      have hpat : pattern = (pattern.take p ++ seg) ++ 0 :: rest := by
        conv_lhs => rw [← List.take_append_drop p pattern, hsplit]
        simp
      have hlenA : (pattern.take p ++ seg).length = p + k := by
        simp [hseglen]; omega
      have htake : pattern.take (p + k) = pattern.take p ++ seg := by
        conv_lhs => rw [hpat]
        exact List.take_left' hlenA
      have htake1 : pattern.take (p + k + 1) = pattern.take p ++ seg ++ [0] := by
        conv_lhs => rw [hpat]
        rw [show pattern.take p ++ seg ++ 0 :: rest = (pattern.take p ++ seg ++ [0]) ++ rest by simp]
        exact List.take_left' (by simp [hseglen]; omega)
      have hdrop1 : pattern.drop (p + k + 1) = rest := by
        conv_lhs => rw [hpat]
        rw [show pattern.take p ++ seg ++ 0 :: rest = (pattern.take p ++ seg ++ [0]) ++ rest by simp]
        exact List.drop_left' (by simp [hseglen]; omega)
      have hnul : pattern[p + k]? = some 0 := by simpa using hk0
      have hslice : slice pattern p (p + k - p) = seg := by
        simp only [slice, Nat.add_sub_cancel_left, hseg]
      -- the parity of the run of backslashes before the NUL
      have hd : p + k - backslashScan pattern (p + k) =
          trailingBackslashes (pattern.take p ++ seg) := by
        rw [backslashScan_eq pattern (p + k) (by omega), htake]
      have hprev : trailingBackslashes (pattern.take p) = 0 := by
        by_cases hp0 : p = 0
        · subst hp0; simp [trailingBackslashes]
        · have h : pattern[p - 1]? = some 0 := by
            rcases hinv with h | h
            · exact absurd h hp0
            · exact h
          have hlt : p - 1 < pattern.length := by omega
          have hts := List.take_succ (l := pattern) (n := p - 1)
          rw [h, show p - 1 + 1 = p by omega] at hts
          rw [hts, show (some 0 : Option Nat).toList = [0] by rfl, trailingBackslashes_concat]
          simp
      have hsegne : trailingBackslashes (pattern.take p ++ seg) % 2 = 1 → seg ≠ [] := by
        intro hodd hnil
        subst hnil
        simp [hprev] at hodd
      obtain ⟨re1, hcpy, hre1⟩ := memcpy_holds seg hre (by omega)
      simp only [hslice, hcpy, Res.bind, hd]
      generalize hdv : trailingBackslashes (pattern.take p ++ seg) % 2 = d at hsegne
      have hd1 : d = 0 ∨ d = 1 := by omega
      -- the bytes before the cursor after `n -= (pnul - p) & 1`
      obtain ⟨seg1, x, hseg1, hseg1len, hseg1eq⟩ :
          ∃ seg1 x, seg = seg1 ++ x ∧ seg1.length = k - d ∧
            seg1 = (if d = 1 ∧ seg ≠ [] then seg.dropLast else seg) := by
        rcases hd1 with h | h
        · subst h
          exact ⟨seg, [], by simp, by simpa using hseglen, by simp⟩
        · subst h
          have hne := hsegne rfl
          refine ⟨seg.dropLast, [seg.getLast hne], (List.dropLast_append_getLast hne).symm, ?_, ?_⟩
          · simp [hseglen]
          · simp [hne]
      have hkd : d ≤ k := by
        rcases hd1 with h | h
        · omega
        · subst h
          have := List.length_pos.mpr (hsegne rfl)
          omega
      have hnlt : ¬ out.length + (p + k - p) < d := by omega
      rw [if_neg hnlt]
      have hre1w : Holds L re1 (out ++ seg1) :=
        hre1.weaken (out ++ seg1) x (by rw [hseg1]; simp)
      have hcur : out.length + (p + k - p) - d = (out ++ seg1).length := by
        simp [hseg1len]; omega
      rw [hcur]
      obtain ⟨re2, hstr, hre2⟩ := memcpy_holds (nulEscape ++ [0]) hre1w (by
        simp [nulEscape, hseg1len]; omega)
      simp only [strcpy, hstr]
      have hre2w : Holds L re2 (out ++ seg1 ++ nulEscape) :=
        hre2.weaken (out ++ seg1 ++ nulEscape) [0] (by simp)
      have hcur2 : (out ++ seg1).length + 4 = (out ++ seg1 ++ nulEscape).length := by
        simp only [List.length_append, nulEscape, List.length_cons, List.length_nil]
      rw [hcur2]
      obtain ⟨p1, re3, out1, hloop, hre3, hp1, hroom1, hout⟩ :=
        ih (p + k + 1) re2 (out ++ seg1 ++ nulEscape) hre2w (by omega) (by omega)
          (by simp [nulEscape, hseg1len]; omega) (Or.inr (by simpa using hnul))
      refine ⟨p1, re3, out1, hloop, hre3, hp1, hroom1, ?_⟩
      rw [hout, hsplit, encodeFrom_segment _ _ _ hseg0, htake1, hdrop1, hdv, ← hseg1eq]
      simp

/-! ## `Pcompile` as a whole -/

theorem Pcompile_head {β : Type} (cfg : Config) (L : Nat) (re0 : List Nat)
    (h0 : Holds L re0 []) (hL : 4 ≤ L) (k : List Nat → Res β) :
    ∃ re3, Holds L re3 (PcompileHead cfg ++ [0]) ∧
      ((store re0 0 0).bind fun re1 =>
        (if cfg.match_lines then strcpy re1 0 [94, 40] else .ok re1).bind fun re2 =>
        (if cfg.match_words then strcpy re2 0 [92, 98, 40] else .ok re2).bind k) = k re3 := by
  obtain ⟨re1, hs1, hre1⟩ := store_holds 0 h0 (by simp; omega)
  simp only [List.length_nil, List.nil_append] at hs1 hre1
  have hnil1 : Holds L re1 [] := hre1.weaken [] [0] (by simp)
  obtain ⟨re2a, hs2, hre2a⟩ := memcpy_holds [94, 40, 0] hnil1 (by simp; omega)
  simp only [List.length_nil, List.nil_append] at hs2 hre2a
  cases hl : cfg.match_lines <;> cases hw : cfg.match_words
  · exact ⟨re1, by simpa [PcompileHead, hl, hw] using hre1, by simp [hs1, Res.bind]⟩
  · obtain ⟨re3, hs3, hre3⟩ := memcpy_holds [92, 98, 40, 0] hnil1 (by simp; omega)
    simp only [List.length_nil, List.nil_append] at hs3 hre3
    exact ⟨re3, by simpa [PcompileHead, hl, hw] using hre3, by simp [hs1, Res.bind, strcpy, hs3]⟩
  · exact ⟨re2a, by simpa [PcompileHead, hl, hw] using hre2a,
      by simp [hs1, Res.bind, strcpy, hs2]⟩
  · have hnil2 : Holds L re2a [] := hre2a.weaken [] [94, 40, 0] (by simp)
    obtain ⟨re3, hs3, hre3⟩ := memcpy_holds [92, 98, 40, 0] hnil2 (by simp; omega)
    simp only [List.length_nil, List.nil_append] at hs3 hre3
    exact ⟨re3, by simpa [PcompileHead, hl, hw] using hre3,
      by simp [hs1, Res.bind, strcpy, hs2, hs3]⟩

theorem Pcompile_tail {β : Type} (cfg : Config) (L : Nat) (re5 text : List Nat)
    (h5 : Holds L re5 text) (hL : text.length + 4 ≤ L) (k : List Nat → Res β) :
    ∃ re8, Holds L re8 (text ++ PcompileTail cfg ++ [0]) ∧
      ((store re5 text.length 0).bind fun re6 =>
        (if cfg.match_words then strcpy re6 text.length [41, 92, 98] else .ok re6).bind fun re7 =>
        (if cfg.match_lines then strcpy re7 text.length [41, 36] else .ok re7).bind k) = k re8 := by
  obtain ⟨re6, hs6, hre6⟩ := store_holds 0 h5 (by omega)
  have hw6 : Holds L re6 text := hre6.weaken text [0] rfl
  obtain ⟨re7a, hs7, hre7a⟩ := memcpy_holds [41, 92, 98, 0] hw6 (by simp; omega)
  cases hl : cfg.match_lines <;> cases hw : cfg.match_words
  · exact ⟨re6, by simpa [PcompileTail, hl, hw] using hre6, by simp [hs6, Res.bind]⟩
  · exact ⟨re7a, by simpa [PcompileTail, hl, hw] using hre7a,
      by simp [hs6, Res.bind, strcpy, hs7]⟩
  · obtain ⟨re8, hs8, hre8⟩ := memcpy_holds [41, 36, 0] hw6 (by simp; omega)
    exact ⟨re8, by simpa [PcompileTail, hl, hw] using hre8, by simp [hs6, Res.bind, strcpy, hs8]⟩
  · have hw7 : Holds L re7a text := hre7a.weaken text [41, 92, 98, 0] (by simp)
    obtain ⟨re8, hs8, hre8⟩ := memcpy_holds [41, 36, 0] hw7 (by simp; omega)
    exact ⟨re8, by simpa [PcompileTail, hl, hw] using hre8,
      by simp [hs6, Res.bind, strcpy, hs7, hs8]⟩

theorem PcompileHead_length_le (cfg : Config) : (PcompileHead cfg).length ≤ 3 := by
  simp only [PcompileHead]
  split
  · simp
  · split <;> simp

theorem PcompileHead_not_mem_zero (cfg : Config) : 0 ∉ PcompileHead cfg := by
  simp only [PcompileHead]
  split
  · simp
  · split <;> simp

theorem PcompileTail_not_mem_zero (cfg : Config) : 0 ∉ PcompileTail cfg := by
  simp only [PcompileTail]
  split
  · simp
  · split <;> simp

theorem Pcompile_eq (cfg : Config) (junk : Nat → Nat) (pattern : List Nat)
    (heol : cfg.eolbyte = 10) :
    Pcompile cfg junk pattern =
      .ok (PcompileHead cfg ++ encodeSpec pattern ++ PcompileTail cfg) := by
  have h0 : Holds (4 * pattern.length + 7) ((List.range (4 * pattern.length + 7)).map junk) [] :=
    ⟨by simp, _, rfl⟩
  simp only [Pcompile, heol, ne_eq, not_true_eq_false, if_false]
  obtain ⟨re3, hre3, hhead⟩ := Pcompile_head cfg _ _ h0 (by omega)
    (fun re3 => (strlen re3 0).bind fun n0 =>
      (PcompileLoop pattern (pattern.length + 1) 0 re3 n0).bind fun st =>
        (memcpy st.2.1 st.2.2 (slice pattern st.1 (pattern.length - st.1))).bind fun re5 =>
        (store re5 (st.2.2 + (pattern.length - st.1)) 0).bind fun re6 =>
        (if cfg.match_words then strcpy re6 (st.2.2 + (pattern.length - st.1)) [41, 92, 98]
          else .ok re6).bind fun re7 =>
        (if cfg.match_lines then strcpy re7 (st.2.2 + (pattern.length - st.1)) [41, 36]
          else .ok re7).bind fun re8 => cstring re8)
  rw [hhead]
  have hlen := PcompileHead_length_le cfg
  rw [strlen_holds hre3 (PcompileHead_not_mem_zero cfg)]
  have hre3w : Holds (4 * pattern.length + 7) re3 (PcompileHead cfg) := hre3.weaken _ [0] rfl
  obtain ⟨p1, re4, out1, hloop, hre4, hp1, hroom1, hout⟩ :=
    PcompileLoop_holds pattern (4 * pattern.length + 7) (pattern.length + 1) 0 re3
      (PcompileHead cfg) hre3w (by omega) (by omega) (by omega) (Or.inl rfl)
  simp only [Res.bind, hloop]
  have hslice : slice pattern p1 (pattern.length - p1) = pattern.drop p1 := by
    simp [slice]
  obtain ⟨re5, hs5, hre5⟩ := memcpy_holds (pattern.drop p1) hre4 (by simp; omega)
  rw [hslice, hs5]
  simp only
  have htext : out1 ++ pattern.drop p1 = PcompileHead cfg ++ encodeSpec pattern := by
    rw [hout]; simp [encodeSpec]
  rw [htext] at hre5
  have hcur : out1.length + (pattern.length - p1) =
      (PcompileHead cfg ++ encodeSpec pattern).length := by
    rw [← htext]; simp
  rw [hcur]
  obtain ⟨re8, hre8, htail⟩ := Pcompile_tail cfg _ re5 _ hre5 (by rw [← hcur]; omega) cstring
  have := htail
  simp only [Res.bind] at this
  rw [this]
  apply cstring_holds hre8
  simp only [List.mem_append, not_or]
  exact ⟨⟨PcompileHead_not_mem_zero cfg, encodeFrom_not_mem_zero _ _⟩, PcompileTail_not_mem_zero cfg⟩

/-! ## The line loop stays inside defined behaviour -/

theorem memchr_of_mem {s : List Nat} {c n : Nat} (hc : c ∈ s) (hn : s.length ≤ n) :
    ∃ k, memchr s c n = some k := by
  cases h : memchr s c n with
  | some k => exact ⟨k, rfl⟩
  | none => exact absurd hc (memchr_none h hn)

theorem memchr_terminated {buf : List Nat} {eol p : Nat} (hterm : buf.getLast? = some eol)
    (hp : p < buf.length) : ∃ k, memchr (buf.drop p) eol (buf.length - p) = some k := by
  apply memchr_of_mem _ (by simp)
  have hne : buf.drop p ≠ [] := by
    intro h
    have := congrArg List.length h
    simp at this
    omega
  have hlast : (buf.drop p).getLast? = some eol := by
    rw [List.getLast?_drop, if_neg (by omega), hterm]
  exact List.mem_of_getLast?_eq_some hlast

theorem check_multibyte_loop_length (cfg : Config) (buf : List Nat)
    (fuel i front_of_char last_state : Nat) (acc : List Nat) :
    (check_multibyte_loop cfg buf fuel i front_of_char last_state acc).length =
      acc.length + min fuel (buf.length - i) := by
  induction fuel generalizing i front_of_char last_state acc with
  | zero => simp [check_multibyte_loop]
  | succ fuel ih =>
    simp only [check_multibyte_loop]
    by_cases hi : i < buf.length
    · rw [if_pos hi]
      split
      · rw [ih]; simp; omega
      · rw [ih]; simp; omega
      · split
        · rw [ih]; simp; omega
        · split
          · rw [ih]; simp; omega
          · rw [ih]; simp; omega
    · rw [if_neg hi]
      have : buf.length - i = 0 := by omega
      simp [this]

theorem check_multibyte_string_length (cfg : Config) (buf : List Nat) :
    (check_multibyte_string cfg buf).length = buf.length := by
  simp [check_multibyte_string, check_multibyte_loop_length]

theorem EGconfirm_defined (cfg : Config) (B : Bundle) (buf : List Nat) (exact : Bool)
    (wfuel beg endp : Nat) (hw : cfg.match_words = false) :
    EGconfirm cfg B buf exact wfuel beg endp = none ∨
      ∃ o l, EGconfirm cfg B buf exact wfuel beg endp = some (.found o l) := by
  simp only [EGconfirm, hw]
  split
  · exact Or.inl rfl
  · split
    · exact Or.inr ⟨_, _, rfl⟩
    · split
      · exact Or.inr ⟨_, _, rfl⟩
      · simp

theorem EGline_defined (cfg : Config) (B : Bundle) (props buf : List Nat) (exact : Bool)
    (wfuel : Nat) (hterm : buf.getLast? = some cfg.eolbyte) (hw : cfg.match_words = false)
    (hkws : ∀ kwsexec, B.kwset = some kwsexec →
      ∀ text m, kwsexec text = some m → m.offset < text.length)
    (hdfa : ∀ text off backref, B.dfa text = some (off, backref) → off < text.length)
    (hprops : B.kwset.isSome = true → cfg.mb_cur_max ≠ 1 → props.length = buf.length)
    (fuel cur : Nat) (hfuel : buf.length - cur < fuel) :
    EGline cfg B props buf exact wfuel fuel cur = .nomatch ∨
      ∃ o l, EGline cfg B props buf exact wfuel fuel cur = .found o l := by
  induction fuel generalizing cur with
  | zero => omega
  | succ fuel ih =>
    simp only [EGline]
    by_cases hcur : cur < buf.length
    · rw [if_neg (not_not.mpr hcur)]
      cases exact with
      | true =>
        simp only [if_true]
        rcases EGconfirm_defined cfg B buf true wfuel cur (cur + buf.length) hw with h | ⟨o, l, h⟩
        · rw [h]; exact ih _ (by omega)
        · rw [h]; exact Or.inr ⟨o, l, rfl⟩
      | false =>
        simp only [Bool.false_eq_true, if_false]
        cases hk : B.kwset with
        | some kwsexec =>
          simp only []
          cases hm : kwsexec (buf.drop cur) with
          | none => exact Or.inl rfl
          | some kwsm =>
            have hoff := hkws kwsexec hk _ _ hm
            simp only [List.length_drop] at hoff
            obtain ⟨k, hmem⟩ := memchr_terminated hterm
              (show cur + kwsm.offset < buf.length by omega)
            obtain ⟨hk1, _, _⟩ := memchr_some hmem
            have hbeg := rewind_le buf cfg.eolbyte (cur + kwsm.offset)
            simp only [hmem]
            have htail :
                (match B.dfa (slice buf (rewind buf cfg.eolbyte (cur + kwsm.offset))
                    (cur + kwsm.offset + k + 1 - rewind buf cfg.eolbyte (cur + kwsm.offset))) with
                  | none => EGline cfg B props buf false wfuel fuel (cur + kwsm.offset + k + 1)
                  | some (_, backref) =>
                    if (!backref) = true then
                      Outcome.found (rewind buf cfg.eolbyte (cur + kwsm.offset))
                        (cur + kwsm.offset + k + 1 - rewind buf cfg.eolbyte (cur + kwsm.offset))
                    else
                      match EGconfirm cfg B buf false wfuel
                          (rewind buf cfg.eolbyte (cur + kwsm.offset))
                          (cur + kwsm.offset + k + 1) with
                      | some r => r
                      | none =>
                        EGline cfg B props buf false wfuel fuel (cur + kwsm.offset + k + 1)) =
                    .nomatch ∨ ∃ o l,
                (match B.dfa (slice buf (rewind buf cfg.eolbyte (cur + kwsm.offset))
                    (cur + kwsm.offset + k + 1 - rewind buf cfg.eolbyte (cur + kwsm.offset))) with
                  | none => EGline cfg B props buf false wfuel fuel (cur + kwsm.offset + k + 1)
                  | some (_, backref) =>
                    if (!backref) = true then
                      Outcome.found (rewind buf cfg.eolbyte (cur + kwsm.offset))
                        (cur + kwsm.offset + k + 1 - rewind buf cfg.eolbyte (cur + kwsm.offset))
                    else
                      match EGconfirm cfg B buf false wfuel
                          (rewind buf cfg.eolbyte (cur + kwsm.offset))
                          (cur + kwsm.offset + k + 1) with
                      | some r => r
                      | none =>
                        EGline cfg B props buf false wfuel fuel (cur + kwsm.offset + k + 1)) =
                    .found o l := by
              split
              · exact ih _ (by omega)
              · split
                · exact Or.inr ⟨_, _, rfl⟩
                · rcases EGconfirm_defined cfg B buf false wfuel
                    (rewind buf cfg.eolbyte (cur + kwsm.offset)) (cur + kwsm.offset + k + 1) hw
                    with h | ⟨o, l, h⟩
                  · rw [h]; exact ih _ (by omega)
                  · rw [h]; exact Or.inr ⟨o, l, rfl⟩
            by_cases hidx : kwsm.index < B.kwset_exact_matches
            · rw [if_pos hidx]
              by_cases hmb : cfg.mb_cur_max = 1
              · rw [if_pos hmb]
                exact Or.inr ⟨_, _, rfl⟩
              · rw [if_neg hmb]
                have hlen := hprops (by simp [hk]) hmb
                have hget : props.get? (rewind buf cfg.eolbyte (cur + kwsm.offset)) =
                    some (props.get ⟨rewind buf cfg.eolbyte (cur + kwsm.offset), by omega⟩) :=
                  List.get?_eq_get _
                rw [hget]
                simp only [Option.map_some']
                split
                · rename_i heq; simp at heq
                · exact Or.inr ⟨_, _, rfl⟩
                · exact htail
            · rw [if_neg hidx]
              exact htail
        | none =>
          simp only []
          cases hm : B.dfa (buf.drop cur) with
          | none => exact Or.inl rfl
          | some r =>
            obtain ⟨offset, backref⟩ := r
            have hoff := hdfa _ _ _ hm
            simp only [List.length_drop] at hoff
            obtain ⟨k, hmem⟩ := memchr_terminated hterm
              (show cur + offset < buf.length by omega)
            obtain ⟨hk1, _, _⟩ := memchr_some hmem
            simp only [hmem]
            split
            · exact Or.inr ⟨_, _, rfl⟩
            · rcases EGconfirm_defined cfg B buf false wfuel
                (rewind buf cfg.eolbyte (cur + offset)) (cur + offset + k + 1) hw
                with h | ⟨o, l, h⟩
              · rw [h]; exact ih _ (by omega)
              · rw [h]; exact Or.inr ⟨o, l, rfl⟩
    · rw [if_pos hcur]
      exact Or.inl rfl

theorem findLit_lt {w text : List Nat} {off : Nat} (hw : w ≠ []) (h : findLit w text = some off) :
    off < text.length := by
  induction text generalizing off with
  | nil => simp [findLit, hw] at h
  | cons b t ih =>
    simp only [findLit] at h
    split at h
    · simp only [Option.some.injEq] at h
      subst h
      simp
    · cases hf : findLit w t with
      | none => simp [hf] at h
      | some off1 =>
        simp only [hf, Option.map_some', Option.some.injEq] at h
        subst h
        have := ih hf
        simp
        omega

/-! ## Pattern sets that are concatenations -/

theorem kwsmustsExact_eq (musts : List DfaMust) (kws : List (List Nat)) (n : Nat) :
    kwsmustsExact musts (kws, n) =
      (kws ++ (musts.filter fun d => d.exact).map DfaMust.must,
        n + (musts.filter fun d => d.exact).length) := by
  induction musts generalizing kws n with
  | nil => simp [kwsmustsExact]
  | cons dm next ih =>
    simp only [kwsmustsExact]
    cases hd : dm.exact with
    | true =>
      simp only [Bool.not_true, Bool.false_eq_true, if_false, ih, List.filter_cons, hd, if_true,
        List.map_cons, List.length_cons, List.append_assoc, List.singleton_append]
      congr 1
      omega
    | false =>
      simp only [Bool.not_false, if_true, ih, List.filter_cons, hd, Bool.false_eq_true, if_false]

theorem kwsmustsProbable_eq (musts : List DfaMust) (kws : List (List Nat)) :
    kwsmustsProbable musts kws =
      kws ++ (musts.filter fun d => !d.exact).map DfaMust.must := by
  induction musts generalizing kws with
  | nil => simp [kwsmustsProbable]
  | cons dm next ih =>
    simp only [kwsmustsProbable]
    cases hd : dm.exact with
    | true => simp [ih, List.filter_cons, hd]
    | false => simp [ih, List.filter_cons, hd]

/-! ## The buffer of the wrapped DFA pattern -/

theorem strlen_holds_at {L : Nat} {re pre text : List Nat} (h : Holds L re (pre ++ text ++ [0]))
    (h0 : 0 ∉ text) : strlen re pre.length = .ok text.length := by
  obtain ⟨hL, t, rfl⟩ := h
  have hdrop : (pre ++ text ++ [0] ++ t).drop pre.length = text ++ 0 :: t := by
    rw [show pre ++ text ++ [0] ++ t = pre ++ (text ++ 0 :: t) by simp]
    exact List.drop_left' rfl
  simp only [strlen, hdrop]
  rw [memchr_append h0 (by simp)]

theorem wrapBuffer_eq (line_beg line_end word_beg word_end : List Nat) (cfg : Config)
    (junk : Nat → Nat) (alt : List Nat)
    (hb : line_beg.length ≤ word_beg.length) (he : line_end.length ≤ word_end.length)
    (hlb : 0 ∉ line_beg) (hle : 0 ∉ line_end) (hwb : 0 ∉ word_beg) (hwe : 0 ∉ word_end) :
    wrapBuffer line_beg line_end word_beg word_end cfg junk alt =
      .ok (wrapDfa cfg line_beg line_end word_beg word_end alt) := by
  simp only [wrapBuffer, wrapDfa]
  split
  · generalize hbdef : (if cfg.match_lines = true then line_beg else word_beg) = b
    generalize hedef : (if cfg.match_lines = true then line_end else word_end) = e
    have hbl : b.length ≤ word_beg.length := by
      rw [← hbdef]; split
      · exact hb
      · exact le_refl _
    have hel : e.length ≤ word_end.length := by
      rw [← hedef]; split
      · exact he
      · exact le_refl _
    have hb0 : 0 ∉ b := by
      rw [← hbdef]; split
      · exact hlb
      · exact hwb
    have he0 : 0 ∉ e := by
      rw [← hedef]; split
      · exact hle
      · exact hwe
    generalize hLdef : word_beg.length + alt.length + (word_end.length + 1) = L
    have h0 : Holds L ((List.range L).map junk) [] := ⟨by simp, _, rfl⟩
    obtain ⟨n1, hs1, hn1⟩ := memcpy_holds (b ++ [0]) h0 (by simp; omega)
    simp only [List.length_nil, List.nil_append] at hs1 hn1
    have hn1w : Holds L n1 b := hn1.weaken b [0] rfl
    obtain ⟨n2, hs2, hn2⟩ := memcpy_holds alt hn1w (by omega)
    obtain ⟨n3, hs3, hn3⟩ := memcpy_holds (e ++ [0]) hn2 (by simp; omega)
    have hlen1 : strlen n1 0 = .ok b.length := strlen_holds hn1 hb0
    have hn3' : Holds L n3 ((b ++ alt) ++ e ++ [0]) := by
      simpa [List.append_assoc] using hn3
    have hlen3 : strlen n3 (b ++ alt).length = .ok e.length := strlen_holds_at hn3' he0
    simp only [List.length_append] at hs3 hlen3
    simp only [strcpy, hs1, Res.bind, hlen1, hs2, hs3, hlen3]
    obtain ⟨_, t, rfl⟩ := hn3
    simp only [slice, List.drop_zero, Res.ok.injEq]
    rw [show b ++ alt ++ (e ++ [0]) ++ t = (b ++ alt ++ e) ++ ([0] ++ t) by simp]
    exact List.take_left' (by simp; omega)
  · rfl

theorem wrapDfa_eq_wrappedText (line_beg line_end word_beg word_end : List Nat) (cfg : Config)
    (alt : List Nat) :
    wrapDfa cfg line_beg line_end word_beg word_end alt =
      wrappedText line_beg line_end word_beg word_end cfg alt := by
  simp only [wrapDfa, wrappedText]
  cases cfg.match_lines <;> cases cfg.match_words <;> simp

theorem memchrMem_none (A pre rest : List Nat) (c n : Nat) (hpre : c ∉ pre)
    (hn : n ≤ pre.length) :
    memchrMem (A ++ pre ++ rest) A.length c n = .ok none := by
  induction n generalizing A pre with
  | zero => simp [memchrMem]
  | succ n ih =>
    cases pre with
    | nil => simp at hn
    | cons b pre =>
      simp only [List.mem_cons, not_or] at hpre
      have hb : b ≠ c := fun h => hpre.1 h.symm
      have hdrop : (A ++ (b :: pre) ++ rest).drop A.length = b :: (pre ++ rest) := by
        simp
      have hmem : A ++ (b :: pre) ++ rest = (A ++ [b]) ++ pre ++ rest := by simp
      simp only [memchrMem, hdrop, if_neg hb]
      rw [hmem]
      have := ih (A ++ [b]) pre hpre.2 (by simpa using hn)
      simpa using this

theorem Ecompile_single (cfg : Config) (pats : List PatSrc) (alt : List Nat) (h10 : 10 ∉ alt) :
    Ecompile cfg pats alt alt.length =
      .ok (pats ++ [⟨alt, wrapDfa cfg E_line_beg E_line_end E_word_beg E_word_end alt⟩]) := by
  have hm := memchrMem_none [] alt [] 10 alt.length h10 (le_refl _)
  simp only [List.nil_append, List.append_nil, List.length_nil] at hm
  simp [Ecompile, EcompileLoop, hm, Res.bind, slice]

theorem Gcompile_single (cfg : Config) (pats : List PatSrc) (alt : List Nat) (x : Nat)
    (tail : List Nat) (h10 : 10 ∉ alt) :
    Gcompile cfg pats (alt ++ x :: tail) alt.length =
      .ok (pats ++ [⟨alt, wrapDfa cfg G_line_beg G_line_end G_word_beg G_word_end alt⟩]) := by
  by_cases hx : x = 10
  · subst hx
    have hm := memchrMem_append [] alt tail 10 (alt.length + 1) h10 (by omega)
    simp only [List.nil_append, List.length_nil, Nat.zero_add] at hm
    simp [Gcompile, GcompileLoop, hm, Res.bind, slice]
  · have hm := memchrMem_none [] (alt ++ [x]) tail 10 (alt.length + 1)
      (by simp [h10]; exact fun h => hx h.symm) (by simp)
    simp only [List.nil_append, List.length_nil, List.append_assoc, List.singleton_append] at hm
    simp [Gcompile, GcompileLoop, hm, Res.bind, slice]

/-! ## Regex confirmation without whole-word and whole-line -/

theorem EGconfirm_plain {cfg : Config} {B : Bundle} {buf : List Nat} {wfuel beg endp : Nat}
    (hw : cfg.match_words = false) (hl : cfg.match_lines = false) :
    EGconfirm cfg B buf false wfuel beg endp =
      match B.re_search false (slice buf beg (endp - beg - 1)) 0 (endp - beg - 1) with
      | none => none
      | some _ => some (.found beg (endp - beg)) := by
  simp only [EGconfirm, hw, hl]
  split <;> simp

theorem EGline_backref {cfg : Config} {B : Bundle} {props buf : List Nat} {wfuel : Nat}
    (hw : cfg.match_words = false) (hl : cfg.match_lines = false)
    (hback : ∀ text off br, B.dfa text = some (off, br) → br = true)
    (hexact : B.kwset_exact_matches = 0)
    (fuel cur : Nat) {o l : Nat}
    (h : EGline cfg B props buf false wfuel fuel cur = .found o l) :
    ∃ m, B.re_search false (slice buf o (l - 1)) 0 (l - 1) = some m := by
  induction fuel generalizing cur with
  | zero => simp [EGline] at h
  | succ fuel ih =>
    simp only [EGline, hexact, Nat.not_lt_zero, if_false, EGconfirm_plain hw hl] at h
    split at h
    · simp at h
    · simp only [Bool.false_eq_true, if_false] at h
      split at h
      · split at h
        · simp at h
        · split at h
          · simp at h
          · split at h
            · exact ih _ h
            · rename_i x backref hd
              have hb := hback _ _ _ hd
              subst hb
              simp only [Bool.not_true, Bool.false_eq_true, if_false] at h
              split at h
              · rename_i r hr
                split at hr
                · simp at hr
                · rename_i m hm
                  simp only [Option.some.injEq] at hr
                  subst hr
                  simp only [Outcome.found.injEq] at h
                  obtain ⟨rfl, rfl⟩ := h
                  exact ⟨m, hm⟩
              · exact ih _ h
      · split at h
        · simp at h
        · rename_i offset backref hd
          have hb := hback _ _ _ hd
          subst hb
          split at h
          · simp at h
          · simp only [Bool.not_true, Bool.false_eq_true, if_false] at h
            split at h
            · rename_i r hr
              split at hr
              · simp at hr
              · rename_i m hm
                simp only [Option.some.injEq] at hr
                subst hr
                simp only [Outcome.found.injEq] at h
                obtain ⟨rfl, rfl⟩ := h
                exact ⟨m, hm⟩
            · exact ih _ h

/-! ## The whole-word loop, round by round -/

theorem EGwordLoop_succ (B : Bundle) (buf : List Nat) (beg endp fuel start len : Nat) :
    EGwordLoop B buf beg endp (fuel + 1) start len =
      match EGwordStep B buf beg endp start len with
      | .exit r => r
      | .again s l => EGwordLoop B buf beg endp fuel s l := by
  simp only [EGwordLoop, EGwordStep]
  split
  · rfl
  · split
    · rfl
    · rfl
    · split
      · rfl
      · split
        · rfl
        · split <;> rfl

theorem slice_length_le (buf : List Nat) (p n : Nat) : (slice buf p n).length ≤ n := by
  simp [slice]

theorem EGwordStep_again {B : Bundle} {buf : List Nat} {beg endp start len s l : Nat}
    (hmatch : ∀ text st n, B.re_match true text st = some n → st + n ≤ text.length)
    (hsearch : ∀ text st range m, B.re_search false text st range = some m →
      st ≤ m.start ∧ m.start ≤ text.length)
    (h : EGwordStep B buf beg endp start len = .again s l) :
    (s = start ∧ l < len) ∨ (start < s ∧ s ≤ endp - beg - 1) := by
  simp only [EGwordStep] at h
  split at h
  · simp at h
  · split at h
    · simp at h
    · simp at h
    · split at h
      · rename_i l1 hl1
        simp only [WordStep.again.injEq] at h
        obtain ⟨hs0, hl0⟩ := h
        left
        refine ⟨hs0.symm, ?_⟩
        split at hl1
        · have hb := hmatch _ _ _ hl1
          have hs := slice_length_le buf beg (start + (len - 1))
          omega
        · simp only [Option.some.injEq] at hl1
          omega
      · split at h
        · simp at h
        · split at h
          · simp at h
          · rename_i m hm
            simp only [WordStep.again.injEq] at h
            obtain ⟨hs0, hl0⟩ := h
            right
            have hb := hsearch _ _ _ _ hm
            have hs := slice_length_le buf beg (endp - beg - 1)
            omega

theorem EGwordStep_exit {B : Bundle} {buf : List Nat} {beg endp start len : Nat}
    {r : Option Outcome} (h : EGwordStep B buf beg endp start len = .exit r) :
    r = some (.found beg (endp - beg)) ∨ r = none ∨ r = some .undefined := by
  simp only [EGwordStep] at h
  split at h
  · simp only [WordStep.exit.injEq] at h
    exact Or.inr (Or.inr h.symm)
  · split at h
    · simp only [WordStep.exit.injEq] at h
      exact Or.inr (Or.inr h.symm)
    · simp only [WordStep.exit.injEq] at h
      exact Or.inl h.symm
    · split at h
      · simp at h
      · split at h
        · simp only [WordStep.exit.injEq] at h
          exact Or.inr (Or.inl h.symm)
        · split at h
          · simp only [WordStep.exit.injEq] at h
            exact Or.inr (Or.inl h.symm)
          · simp at h

theorem EGwordLoop_terminates {B : Bundle} {buf : List Nat} {beg endp : Nat}
    (hmatch : ∀ text st n, B.re_match true text st = some n → st + n ≤ text.length)
    (hsearch : ∀ text st range m, B.re_search false text st range = some m →
      st ≤ m.start ∧ m.start ≤ text.length)
    (start len : Nat) :
    ∃ N, ∀ fuel, N ≤ fuel →
      EGwordLoop B buf beg endp fuel start len = some (.found beg (endp - beg)) ∨
      EGwordLoop B buf beg endp fuel start len = none ∨
      EGwordLoop B buf beg endp fuel start len = some .undefined := by
  generalize hd : endp - beg - 1 + 1 - start = d
  induction d using Nat.strong_induction_on generalizing start len with
  | _ d ihd =>
    induction len using Nat.strong_induction_on with
    | _ len ihl =>
      cases hstep : EGwordStep B buf beg endp start len with
      | exit r =>
        refine ⟨1, ?_⟩
        intro fuel hfuel
        obtain ⟨f, rfl⟩ : ∃ f, fuel = f + 1 := ⟨fuel - 1, by omega⟩
        rw [EGwordLoop_succ, hstep]
        exact EGwordStep_exit hstep
      | again s l =>
        have hN : ∃ N, ∀ fuel, N ≤ fuel →
            EGwordLoop B buf beg endp fuel s l = some (.found beg (endp - beg)) ∨
            EGwordLoop B buf beg endp fuel s l = none ∨
            EGwordLoop B buf beg endp fuel s l = some .undefined := by
          rcases EGwordStep_again hmatch hsearch hstep with ⟨rfl, hl⟩ | ⟨hs1, hs2⟩
          · exact ihl l hl
          · exact ihd (endp - beg - 1 + 1 - s) (by omega) s l rfl
        obtain ⟨N, hN⟩ := hN
        refine ⟨N + 1, ?_⟩
        intro fuel hfuel
        obtain ⟨f, rfl⟩ : ∃ f, fuel = f + 1 := ⟨fuel - 1, by omega⟩
        rw [EGwordLoop_succ, hstep]
        exact hN f (by omega)

/-! ## What the whole-word loop accepts -/

theorem slice_take (buf : List Nat) (p k L : Nat) (h : k ≤ L) :
    slice buf p k = (slice buf p L).take k := by
  simp [slice, List.take_take, Nat.min_eq_left h]

theorem EGwordStep_accept {B : Bundle} {buf : List Nat} {beg endp start len o l : Nat}
    (hin : start + len ≤ endp - beg - 1)
    (h : EGwordStep B buf beg endp start len = .exit (some (.found o l))) :
    WordBounded buf beg (endp - beg - 1) start len := by
  simp only [EGwordStep] at h
  split at h
  · simp at h
  · rename_i b1 hb1
    split at h
    · simp at h
    · rename_i hc2
      have hb : b1 = true := by
        cases b1 with
        | true => rfl
        | false => simp at hc2
      subst hb
      constructor
      · by_cases hs : start = 0
        · exact Or.inl hs
        · right
          simp only [hs, if_false, Option.map_eq_some'] at hb1
          obtain ⟨c, hc, hw⟩ := hb1
          exact ⟨c, hc, by simpa using hw⟩
      · by_cases hl : len = endp - beg - 1
        · left
          omega
        · right
          simp only [Bool.not_true, Bool.false_eq_true, if_false, hl,
            Option.map_eq_some'] at hc2
          obtain ⟨c, hc, hw⟩ := hc2
          exact ⟨c, hc, by simpa using hw⟩
    · split at h
      · simp at h
      · split at h
        · simp at h
        · split at h
          · simp at h
          · simp at h

theorem EGwordStep_span {B : Bundle} {buf : List Nat} {beg endp start len s l : Nat}
    (hmatch : ∀ text st n, B.re_match true text st = some n → st + n ≤ text.length)
    (hsearch : ∀ text st range m, B.re_search false text st range = some m →
      m.start + m.len ≤ text.length)
    (hin : start + len ≤ endp - beg - 1)
    (h : EGwordStep B buf beg endp start len = .again s l) :
    RegexSpan B (slice buf beg (endp - beg - 1)) s l ∧ s + l ≤ endp - beg - 1 := by
  simp only [EGwordStep] at h
  split at h
  · simp at h
  · split at h
    · simp at h
    · simp at h
    · split at h
      · rename_i l1 hl1
        simp only [WordStep.again.injEq] at h
        obtain ⟨hs0, hl0⟩ := h
        subst hs0 hl0
        split at hl1
        · rename_i hpos
          have hb := hmatch _ _ _ hl1
          have hs := slice_length_le buf beg (start + (len - 1))
          refine ⟨Or.inr ⟨start + (len - 1), ?_⟩, by omega⟩
          rw [← slice_take buf beg _ _ (by omega)]
          exact hl1
        · simp only [Option.some.injEq] at hl1
          omega
      · split at h
        · simp at h
        · split at h
          · simp at h
          · rename_i m hm
            simp only [WordStep.again.injEq] at h
            obtain ⟨hs0, hl0⟩ := h
            subst hs0 hl0
            have hb := hsearch _ _ _ _ hm
            have hs := slice_length_le buf beg (endp - beg - 1)
            exact ⟨Or.inl ⟨_, _, hm⟩, by omega⟩

theorem EGwordLoop_bounded {B : Bundle} {buf : List Nat} {beg endp : Nat}
    (hmatch : ∀ text st n, B.re_match true text st = some n → st + n ≤ text.length)
    (hsearch : ∀ text st range m, B.re_search false text st range = some m →
      m.start + m.len ≤ text.length)
    (fuel start len : Nat) {o l : Nat}
    (hspan : RegexSpan B (slice buf beg (endp - beg - 1)) start len)
    (hin : start + len ≤ endp - beg - 1)
    (h : EGwordLoop B buf beg endp fuel start len = some (.found o l)) :
    ∃ s n, RegexSpan B (slice buf beg (endp - beg - 1)) s n ∧ s + n ≤ endp - beg - 1 ∧
      WordBounded buf beg (endp - beg - 1) s n := by
  induction fuel generalizing start len with
  | zero => simp [EGwordLoop] at h
  | succ fuel ih =>
    rw [EGwordLoop_succ] at h
    cases hstep : EGwordStep B buf beg endp start len with
    | exit r =>
      rw [hstep] at h
      simp only at h
      subst h
      exact ⟨start, len, hspan, hin, EGwordStep_accept hin hstep⟩
    | again s l =>
      rw [hstep] at h
      simp only at h
      obtain ⟨h1, h2⟩ := EGwordStep_span hmatch hsearch hin hstep
      exact ih s l h1 h2 h

theorem EGwordStep_defined {B : Bundle} {buf : List Nat} {beg endp start len : Nat}
    (hbe : beg < endp) (hbuf : endp ≤ buf.length) (hin : start + len ≤ endp - beg - 1) :
    EGwordStep B buf beg endp start len ≠ .exit (some .undefined) := by
  intro h
  simp only [EGwordStep] at h
  split at h
  · rename_i hc1
    by_cases hs : start = 0
    · simp [hs] at hc1
    · have : beg + start - 1 < buf.length := by omega
      simp [hs, List.get?_eq_getElem?, List.getElem?_eq_getElem this] at hc1
  · split at h
    · rename_i hc2
      split at hc2
      · simp at hc2
      · split at hc2
        · simp at hc2
        · have : beg + start + len < buf.length := by omega
          simp [List.get?_eq_getElem?, List.getElem?_eq_getElem this] at hc2
    · simp at h
    · split at h
      · simp at h
      · split at h
        · simp at h
        · split at h
          · simp at h
          · simp at h

theorem EGwordLoop_defined {B : Bundle} {buf : List Nat} {beg endp : Nat}
    (hmatch : ∀ text st n, B.re_match true text st = some n → st + n ≤ text.length)
    (hsearch : ∀ text st range m, B.re_search false text st range = some m →
      m.start + m.len ≤ text.length)
    (hbe : beg < endp) (hbuf : endp ≤ buf.length)
    (fuel start len : Nat) (hin : start + len ≤ endp - beg - 1) :
    EGwordLoop B buf beg endp fuel start len ≠ some .undefined := by
  induction fuel generalizing start len with
  | zero => simp [EGwordLoop]
  | succ fuel ih =>
    rw [EGwordLoop_succ]
    cases hstep : EGwordStep B buf beg endp start len with
    | exit r =>
      simp only
      intro hr
      subst hr
      exact EGwordStep_defined hbe hbuf hin hstep
    | again s l =>
      simp only
      exact ih s l (EGwordStep_span hmatch hsearch hin hstep).2

/-! ## The literal regex engine keeps its results inside the text -/

theorem findLit_bound {w text : List Nat} {off : Nat} (h : findLit w text = some off) :
    off + w.length ≤ text.length := by
  induction text generalizing off with
  | nil =>
    simp only [findLit] at h
    split at h
    · rename_i hw
      simp only [Option.some.injEq] at h
      subst h hw
      simp
    · simp at h
  | cons b t ih =>
    simp only [findLit] at h
    split at h
    · rename_i hp
      simp only [Option.some.injEq] at h
      subst h
      have := (List.isPrefixOf_iff_prefix.mp hp).length_le
      simpa using this
    · cases hf : findLit w t with
      | none => simp [hf] at h
      | some off1 =>
        simp only [hf, Option.map_some', Option.some.injEq] at h
        subst h
        have := ih hf
        simp only [List.length_cons]
        omega

theorem re_matchLit_bound {w : List Nat} (hw : w ≠ []) (text : List Nat) (st n : Nat)
    (h : re_matchLit w true text st = some n) : st + n ≤ text.length := by
  simp only [re_matchLit] at h
  split at h
  · rename_i hp
    simp only [Option.some.injEq] at h
    subst h
    have h1 := (List.isPrefixOf_iff_prefix.mp hp).length_le
    have h2 : 0 < w.length := List.length_pos.mpr hw
    simp only [List.length_drop] at h1
    omega
  · simp at h

theorem re_searchLit_bound {w : List Nat} (hw : w ≠ []) (text : List Nat) (st range : Nat)
    (m : ReMatch) (h : re_searchLit w false text st range = some m) :
    st ≤ m.start ∧ m.start + m.len ≤ text.length := by
  simp only [re_searchLit] at h
  split at h
  · rename_i off hf
    split at h
    · simp only [Option.some.injEq] at h
      subst h
      have h1 := findLit_bound hf
      have h2 : 0 < w.length := List.length_pos.mpr hw
      simp only [List.length_drop] at h1
      simp only
      omega
    · simp at h
  · simp at h

/-! ## The whole-word confirmation of one line -/

theorem EGwordStep_exit_none {B : Bundle} {buf : List Nat} {beg endp start len : Nat}
    (h : EGwordStep B buf beg endp start len = .exit none) :
    start = endp - beg - 1 ∨
      B.re_search false (slice buf beg (endp - beg - 1)) (start + 1)
        (endp - beg - 1 - (start + 1)) = none := by
  simp only [EGwordStep] at h
  split at h
  · simp at h
  · split at h
    · simp at h
    · simp at h
    · split at h
      · simp at h
      · split at h
        · rename_i hs
          exact Or.inl hs
        · split at h
          · rename_i hm
            exact Or.inr hm
          · simp at h

theorem EGconfirm_words {cfg : Config} {B : Bundle} {buf : List Nat} {wfuel beg endp : Nat}
    (hw : cfg.match_words = true) (hl : cfg.match_lines = false) :
    EGconfirm cfg B buf false wfuel beg endp =
      match B.re_search false (slice buf beg (endp - beg - 1)) 0 (endp - beg - 1) with
      | none => none
      | some m => EGwordLoop B buf beg endp wfuel m.start m.len := by
  simp only [EGconfirm, hw, hl]
  split <;> simp

theorem EGwordLoop_settles {B : Bundle} {buf : List Nat} {beg endp : Nat}
    (hmatch : ∀ text st n, B.re_match true text st = some n → st + n ≤ text.length)
    (hsearch : ∀ text st range m, B.re_search false text st range = some m →
      st ≤ m.start ∧ m.start + m.len ≤ text.length)
    (hbe : beg < endp) (hbuf : endp ≤ buf.length)
    (start len : Nat) (hin : start + len ≤ endp - beg - 1) :
    ∃ N, ∀ fuel, N ≤ fuel →
      EGwordLoop B buf beg endp fuel start len = some (.found beg (endp - beg)) ∨
      EGwordLoop B buf beg endp fuel start len = none := by
  have hsearch1 : ∀ text st range m, B.re_search false text st range = some m →
      st ≤ m.start ∧ m.start ≤ text.length := by
    intro text st range m hm
    have := hsearch text st range m hm
    omega
  have hsearch2 : ∀ text st range m, B.re_search false text st range = some m →
      m.start + m.len ≤ text.length := fun text st range m hm => (hsearch text st range m hm).2
  obtain ⟨N, hN⟩ := @EGwordLoop_terminates B buf beg endp hmatch hsearch1 start len
  refine ⟨N, ?_⟩
  intro fuel hfuel
  rcases hN fuel hfuel with h | h | h
  · exact Or.inl h
  · exact Or.inr h
  · exact absurd h (EGwordLoop_defined hmatch hsearch2 hbe hbuf fuel start len hin)

/-! ## A prefilter hit on a line without terminator -/

theorem memchr_not_mem {s : List Nat} {c : Nat} (n : Nat) (h : c ∉ s) : memchr s c n = none := by
  cases hm : memchr s c n with
  | none => rfl
  | some k =>
    exfalso
    apply h
    have h1 := (memchr_some hm).2.1
    obtain ⟨hlt, he⟩ := List.getElem?_eq_some_iff.mp h1
    exact he ▸ List.getElem_mem hlt

theorem EGline_unterminated_kws {cfg : Config} {B : Bundle} {props buf : List Nat}
    {wfuel fuel cur : Nat} {kwsexec : List Nat → Option KwsMatch} {kwsm : KwsMatch}
    (hcur : cur < buf.length) (hk : B.kwset = some kwsexec)
    (hhit : kwsexec (buf.drop cur) = some kwsm)
    (hno : cfg.eolbyte ∉ buf.drop (cur + kwsm.offset)) :
    EGline cfg B props buf false wfuel (fuel + 1) cur = .undefined := by
  simp [EGline, hcur, hk, hhit, memchr_not_mem _ hno]

theorem EGline_unterminated_dfa {cfg : Config} {B : Bundle} {props buf : List Nat}
    {wfuel fuel cur offset : Nat} {backref : Bool}
    (hcur : cur < buf.length) (hk : B.kwset = none)
    (hhit : B.dfa (buf.drop cur) = some (offset, backref))
    (hno : cfg.eolbyte ∉ buf.drop (cur + offset)) :
    EGline cfg B props buf false wfuel (fuel + 1) cur = .undefined := by
  simp [EGline, hcur, hk, hhit, memchr_not_mem _ hno]

theorem EGexecute_found_wholeLine {cfg : Config} {patterns : List Bundle} {buf : List Nat}
    {wfuel o l : Nat} (h : EGexecute cfg patterns buf false wfuel = .found o l) :
    WholeLine buf cfg.eolbyte o l := by
  induction patterns with
  | nil => simp [EGexecute] at h
  | cons B rest ih =>
    simp only [EGexecute] at h
    split at h
    · exact ih h
    · exact EGline_found (buf.length + 1) 0 h

/-! ## `check_multibyte_string` on a buffer of complete characters -/

theorem slice_mid (pre c post : List Nat) (m : Nat) (h : m ≤ c.length) :
    slice (pre ++ c ++ post) pre.length m = c.take m := by
  simp only [slice, List.append_assoc, List.drop_left, List.take_append_eq_append_take]
  have : m - c.length = 0 := by omega
  simp [this]

theorem check_multibyte_char_steps {cfg : Config} {c : List Nat} (hc : IsChar cfg c)
    (hn : 1 < c.length) (pre post : List Nat) (k : Nat) :
    ∀ j fuel st acc, j + (k + 1) = c.length →
      check_multibyte_loop cfg (pre ++ c ++ post) (fuel + (k + 1)) (pre.length + j) pre.length
          st acc =
        check_multibyte_loop cfg (pre ++ c ++ post) fuel (pre.length + c.length)
          (pre.length + c.length) (cfg.mbrlen st c).2 (acc ++ List.replicate (k + 1) 0) := by
  induction k with
  | zero =>
    intro j fuel st acc hj
    have hi : pre.length + j < (pre ++ c ++ post).length := by
      simp only [List.length_append]
      omega
    have hs : slice (pre ++ c ++ post) pre.length (pre.length + j - pre.length + 1) = c := by
      rw [slice_mid pre c post _ (by omega)]
      exact List.take_of_length_le (by omega)
    have hlen : (cfg.mbrlen st c).1 = .len c.length := by
      rcases hc.2.1 st with h | ⟨h, _⟩
      · exact h
      · omega
    have hne : ¬ c.length = 1 := by omega
    have hj1 : pre.length + j + 1 = pre.length + c.length := by omega
    show check_multibyte_loop cfg (pre ++ c ++ post) (fuel + 1) (pre.length + j) pre.length
      st acc = _
    rw [check_multibyte_loop]
    simp only [hi, if_true, hs, hlen, hne, if_false, hn, hj1]
    rfl
  | succ k ih =>
    intro j fuel st acc hj
    have hi : pre.length + j < (pre ++ c ++ post).length := by
      simp only [List.length_append]
      omega
    have hs : slice (pre ++ c ++ post) pre.length (pre.length + j - pre.length + 1) =
        c.take (j + 1) := by
      rw [slice_mid pre c post _ (by omega)]
      congr 1
      omega
    have hinc : (cfg.mbrlen st (c.take (j + 1))).1 = .incomplete :=
      hc.2.2 st (j + 1) (by omega) (by omega)
    show check_multibyte_loop cfg (pre ++ c ++ post) ((fuel + (k + 1)) + 1) (pre.length + j)
      pre.length st acc = _
    rw [check_multibyte_loop]
    simp only [hi, if_true, hs, hinc]
    rw [Nat.add_assoc pre.length j 1, ih (j + 1) fuel st (acc ++ [0]) (by omega)]
    simp [List.replicate_succ]

theorem check_multibyte_loop_chars (cfg : Config) (chars : List (List Nat))
    (hchars : ∀ c ∈ chars, IsChar cfg c) :
    ∀ (pre : List Nat) (st : Nat) (acc : List Nat) (fuel : Nat), chars.flatten.length ≤ fuel →
      check_multibyte_loop cfg (pre ++ chars.flatten) fuel pre.length pre.length st acc =
        acc ++ (chars.map charProps).flatten := by
  induction chars with
  | nil =>
    intro pre st acc fuel _
    cases fuel with
    | zero => simp [check_multibyte_loop]
    | succ f => simp [check_multibyte_loop]
  | cons c chars ih =>
    intro pre st acc fuel hfuel
    have hc : IsChar cfg c := hchars c (List.mem_cons_self _ _)
    have hrest : ∀ d ∈ chars, IsChar cfg d := fun d hd => hchars d (List.mem_cons_of_mem _ hd)
    have hpos : 0 < c.length := List.length_pos.mpr hc.1
    simp only [List.flatten_cons, List.length_append] at hfuel
    have hbuf : pre ++ (c :: chars).flatten = pre ++ c ++ chars.flatten := by
      simp [List.flatten_cons]
    have hplen : (pre ++ c).length = pre.length + c.length := by simp
    by_cases h1 : c.length = 1
    · obtain ⟨f, rfl⟩ : ∃ f, fuel = f + 1 := ⟨fuel - 1, by omega⟩
      have hi : pre.length < (pre ++ c ++ chars.flatten).length := by
        simp only [List.length_append]
        omega
      have hs : slice (pre ++ c ++ chars.flatten) pre.length (pre.length - pre.length + 1) =
          c := by
        rw [slice_mid pre c _ _ (by omega)]
        exact List.take_of_length_le (by omega)
      have hstep : check_multibyte_loop cfg (pre ++ c ++ chars.flatten) (f + 1) pre.length
          pre.length st acc =
          check_multibyte_loop cfg (pre ++ c ++ chars.flatten) f (pre.length + 1)
            (pre.length + 1) st (acc ++ [1]) := by
        rw [check_multibyte_loop]
        simp only [hi, if_true, hs]
        rcases hc.2.1 st with h | ⟨_, h⟩
        · simp [h, h1]
        · simp [h]
      rw [hbuf, hstep]
      have := ih hrest (pre ++ c) st (acc ++ [1]) f (by omega)
      rw [hplen, h1] at this
      rw [this]
      simp [charProps, h1]
    · have hn : 1 < c.length := by omega
      obtain ⟨f, rfl⟩ : ∃ f, fuel = f + (c.length - 1 + 1) :=
        ⟨fuel - c.length, by omega⟩
      have hstep := check_multibyte_char_steps hc hn pre chars.flatten (c.length - 1) 0 f st acc
        (by omega)
      simp only [Nat.add_zero] at hstep
      rw [hbuf, hstep]
      have := ih hrest (pre ++ c) (cfg.mbrlen st c).2
        (acc ++ List.replicate (c.length - 1 + 1) 0) f (by omega)
      rw [hplen] at this
      rw [this]
      have hk : c.length - 1 + 1 = c.length := by omega
      simp [charProps, h1, hk]

theorem check_multibyte_string_chars (cfg : Config) (chars : List (List Nat))
    (hchars : ∀ c ∈ chars, IsChar cfg c) :
    check_multibyte_string cfg chars.flatten = (chars.map charProps).flatten := by
  have := check_multibyte_loop_chars cfg chars hchars [] 0 [] chars.flatten.length (le_refl _)
  simpa [check_multibyte_string] using this

/-! ## The room that `Pcompile` needs -/

theorem encodePiece_length_le (before : List Nat) (b : Nat) (next : Option Nat) :
    (encodePiece before b next).length ≤ 4 := by
  simp only [encodePiece]
  split
  · simp [nulEscape]
  · split <;> simp

theorem encodeFrom_length_le (before l : List Nat) :
    (encodeFrom before l).length ≤ 4 * l.length := by
  induction l generalizing before with
  | nil => simp [encodeFrom]
  | cons b rest ih =>
    simp only [encodeFrom, List.length_append, List.length_cons]
    have h1 := encodePiece_length_le before b rest.head?
    have h2 := ih (before ++ [b])
    omega

theorem PcompileTail_length_le (cfg : Config) : (PcompileTail cfg).length ≤ 3 := by
  simp only [PcompileTail]
  split
  · simp
  · split <;> simp

theorem backslashScan_ge (pattern : List Nat) (p q : Nat) (hpq : p ≤ q)
    (hp : p = 0 ∨ pattern.getD (p - 1) 0 ≠ 92) : p ≤ backslashScan pattern q := by
  induction q with
  | zero => omega
  | succ q ih =>
    simp only [backslashScan]
    split
    · rename_i hq
      by_cases hle : p ≤ q
      · exact ih hle
      · have hpe : p = q + 1 := by omega
        rcases hp with h0 | h92
        · omega
        · exfalso
          apply h92
          rw [hpe]
          simpa using hq
    · exact hpq

/-! ## The layered executor: claims C1, C2, C4 -/

/-- C1. A non-exact result `(o, l)` of `EGexecute` is exactly one whole line of
the buffer with its terminator: `l ≥ 1`, `o + l ≤ N`, the line starts at offset
`0` or right after a terminator, its last byte `B[o+l-1]` is the terminator and
no byte of `B[o .. o+l-2]` is.  It holds for every buffer and pattern set; the
claim's conditions on the buffer and on the engines' offsets only keep the run
inside defined C, and a run that leaves it does not return `found`. -/
theorem EGexecute_reports_whole_line (cfg : Config) (patterns : List Bundle) (buf : List Nat)
    (wfuel o l : Nat) (h : EGexecute cfg patterns buf false wfuel = .found o l) :
    1 ≤ l ∧ o + l ≤ buf.length ∧ (o = 0 ∨ buf[o - 1]? = some cfg.eolbyte) ∧
      buf[o + l - 1]? = some cfg.eolbyte ∧
      ∀ j, o ≤ j → j < o + l - 1 → buf[j]? ≠ some cfg.eolbyte := by
  induction patterns with
  | nil => simp [EGexecute] at h
  | cons B rest ih =>
    simp only [EGexecute] at h
    split at h
    · exact ih h
    · rename_i r hr
      exact EGline_found (buf.length + 1) 0 h

/-- Witness for C1: the pattern `bar` on the buffer `foo\nbar\n` reports the
second line `(4, 4)`. -/
theorem EGexecute_reports_whole_line_witness :
    EGexecute cConfig [litBundle [98, 97, 114]] [102, 111, 111, 10, 98, 97, 114, 10] false 0
        = .found 4 4 ∧
      (1 ≤ 4 ∧ 4 + 4 ≤ [102, 111, 111, 10, 98, 97, 114, 10].length ∧
        (4 = 0 ∨ [102, 111, 111, 10, 98, 97, 114, 10][4 - 1]? = some cConfig.eolbyte) ∧
        [102, 111, 111, 10, 98, 97, 114, 10][4 + 4 - 1]? = some cConfig.eolbyte ∧
        ∀ j, 4 ≤ j → j < 4 + 4 - 1 →
          [102, 111, 111, 10, 98, 97, 114, 10][j]? ≠ some cConfig.eolbyte) :=
  ⟨by decide,
    EGexecute_reports_whole_line cConfig [litBundle [98, 97, 114]]
      [102, 111, 111, 10, 98, 97, 114, 10] 0 4 4 (by decide)⟩

/-- C6, the code at the failing input. The blob `a\nb` (`total = 3`) is followed
in memory by two NUL bytes: `Gcompile` compiles `a` and then the two bytes `b\0`,
the second of which lies outside the blob; the claim gives the pieces `a` and
`b`.  Whatever bytes `tail` follow the blob, the scans of the second round read
the indices `3` and `4`, and the result is never the two pieces `a` and `b`. -/
theorem Gcompile_reads_past_blob :
    Gcompile cConfig [] [97, 10, 98, 0, 0] 3 = .ok [⟨[97], [97]⟩, ⟨[98, 0], [98, 0]⟩] ∧
      ∀ tail : List Nat,
        Gcompile cConfig [] ([97, 10, 98] ++ tail) 3 ≠ .ok [⟨[97], [97]⟩, ⟨[98], [98]⟩] := by
  refine ⟨by decide, ?_⟩
  intro tail
  match tail with
  | [] => decide
  | [x] =>
    by_cases hx : x = 10
    · subst hx; decide
    · simp [Gcompile, GcompileLoop, memchrMem, Res.bind, hx]
  | x :: y :: rest =>
    by_cases hx : x = 10
    · subst hx
      intro h
      have e : Gcompile cConfig [] ([97, 10, 98] ++ 10 :: y :: rest) 3 =
          GcompileLoop cConfig (97 :: 10 :: 98 :: 10 :: y :: rest) (rest.length + 5) 4 1
            [⟨[97], [97]⟩, ⟨[98], [98]⟩] := by
        simp only [Gcompile, List.cons_append, List.nil_append, List.length_cons]
        rw [GcompileLoop_step cConfig _ (rest.length + 6) 0 3 1 [] (by simp [memchrMem])
          (by simp) (by simp)]
        rw [GcompileLoop_step cConfig _ (rest.length + 5) 2 2 3 _ (by simp [memchrMem])
          (by simp) (by simp)]
        rfl
      rw [e] at h
      have := GcompileLoop_length _ _ _ _ _ _ _ h
      simp at this
    · by_cases hy : y = 10
      · subst hy
        simp [Gcompile, GcompileLoop, memchrMem, Res.bind, hx, slice, wrapDfa, cConfig]
        split <;> simp
      · simp [Gcompile, GcompileLoop, memchrMem, Res.bind, hx, hy, slice, wrapDfa, cConfig]
        split <;> simp

/-- C7, the code at the failing input. For the blob `a\nb` `Ecompile` appends
the one pattern `a` and leaves the loop (`total` is `1`, not `0`); the claim
gives the two patterns `a` and `b`.  In general, when bytes follow the first
newline of the blob, `Ecompile` appends only the piece before that newline. -/
theorem Ecompile_stops_after_first :
    Ecompile cConfig [] [97, 10, 98] 3 = .ok [⟨[97], [97]⟩] ∧
      ∀ (cfg : Config) (pats : List PatSrc) (pre rest : List Nat), 10 ∉ pre → rest ≠ [] →
        Ecompile cfg pats (pre ++ 10 :: rest) (pre ++ 10 :: rest).length =
          .ok (pats ++ [⟨pre, wrapDfa cfg E_line_beg E_line_end E_word_beg E_word_end pre⟩]) := by
  refine ⟨by decide, ?_⟩
  intro cfg pats pre rest hpre hrest
  have hm := memchrMem_append [] pre rest 10 (pre ++ 10 :: rest).length hpre (by simp)
  simp only [List.nil_append, List.length_nil, Nat.zero_add] at hm
  have hpos : 0 < rest.length := List.length_pos.mpr hrest
  simp only [Ecompile, EcompileLoop, hm, Res.bind, Nat.sub_zero, Nat.zero_add]
  rw [if_neg (by simp), if_neg (by simp; omega)]
  simp [slice]

/-- C8, counterexample. With newline as terminator the blob `a\n` yields the
one keyword `a`, not `a` and the empty keyword; with the terminator byte `0x00`
the blob `a\nb` yields the keywords `a` and `b`, not the one keyword `a\nb`. -/
theorem Fcompile_split_counterexample :
    (Fcompile cConfig [97, 10] = .ok [[97]] ∧ Fcompile cConfig [97, 10] ≠ .ok [[97], []]) ∧
      (Fcompile { cConfig with eolbyte := 0 } [97, 10, 98] = .ok [[97], [98]] ∧
        Fcompile { cConfig with eolbyte := 0 } [97, 10, 98] ≠ .ok [[97, 10, 98]]) := by
  decide

/-- C8, amended. Whatever the configured terminator byte, `Fcompile` inserts, in
order, the pieces obtained by splitting on the newline byte `0x0A` the blob
without one trailing newline: a blob that ends in a newline gets no final empty
keyword, and the empty blob yields the one empty keyword. -/
theorem Fcompile_keywords (cfg : Config) (motif : List Nat) :
    Fcompile cfg motif = .ok ((stripNewline motif).splitOn 10) := by
  simpa [Fcompile] using FcompileLoop_eq motif (motif.length + 1) 0 [] (by omega) (by omega)

/-! ## The Perl compiler: claims C9, C10 -/

/-- C9. With no wrap flag (and newline as terminator, the one setting `Pcompile`
accepts), the text handed to the Perl engine is the NUL encoding of the pattern
as the spec words it (`encodeSpec`): every NUL becomes `\000`, the last
backslash of an odd run that ends right before a NUL is deleted, every other
byte is copied in order.  That text holds no NUL byte; for the NUL at any
position `pre.length` the text is `out ++ \000 ++ ..` with an even run of
backslashes at the end of `out`; and a pattern without NUL is passed through
unchanged. -/
theorem Pcompile_nul_encoding (cfg : Config) (junk : Nat → Nat) (pattern : List Nat)
    (hlines : cfg.match_lines = false) (hwords : cfg.match_words = false)
    (heol : cfg.eolbyte = 10) :
    Pcompile cfg junk pattern = .ok (encodeSpec pattern) ∧
      0 ∉ encodeSpec pattern ∧
      (∀ pre post, pattern = pre ++ 0 :: post →
        ∃ out, encodeSpec (pre ++ [0]) = out ++ nulEscape ∧
          encodeSpec pattern = out ++ nulEscape ++ encodeFrom (pre ++ [0]) post ∧
          trailingBackslashes out % 2 = 0) ∧
      (0 ∉ pattern → encodeSpec pattern = pattern) := by
  refine ⟨?_, encodeFrom_not_mem_zero _ _, ?_, fun h0 => encodeFrom_no_nul _ _ h0⟩
  · rw [Pcompile_eq cfg junk pattern heol]
    simp [PcompileHead, PcompileTail, hlines, hwords]
  · intro pre post hpat
    obtain ⟨out, hout, heven⟩ := encodeFrom_before_nul pre [] []
    refine ⟨out, ?_, ?_, ?_⟩
    · have := hout []
      simpa [encodeSpec, encodeFrom] using this
    · rw [hpat]
      simpa [encodeSpec] using hout post
    · have := heven (fun _ => rfl) (fun _ => rfl)
      simpa using this

/-- Witness for C9: the pattern `a \ NUL b` (bytes `97 92 0 98`) is compiled
as `a\000b`: the backslash before the NUL is dropped. -/
theorem Pcompile_nul_encoding_witness :
    Pcompile cConfig (fun _ => 7) [97, 92, 0, 98] = .ok (encodeSpec [97, 92, 0, 98]) ∧
      encodeSpec [97, 92, 0, 98] = [97, 92, 48, 48, 48, 98] :=
  ⟨(Pcompile_nul_encoding cConfig (fun _ => 7) [97, 92, 0, 98] rfl rfl rfl).1, by decide⟩

/-- C10, the code at the failing input. With both whole-line and whole-word set
the text `Pcompile` compiles opens with `\b(`, not with `^(`: the second
`strcpy` of lines 636-639 overwrites the first.  For the pattern `a` the text is
`\b(a)$`; the claim gives `^(a)$`. -/
theorem Pcompile_both_flags (junk : Nat → Nat) (pattern : List Nat) :
    Pcompile { cConfig with match_words := true, match_lines := true } junk pattern =
        .ok ([92, 98, 40] ++ encodeSpec pattern ++ [41, 36]) ∧
      Pcompile { cConfig with match_words := true, match_lines := true } junk [97] =
        .ok [92, 98, 40, 97, 41, 36] := by
  have h := fun p => Pcompile_eq { cConfig with match_words := true, match_lines := true } junk p rfl
  refine ⟨by simpa [PcompileHead, PcompileTail] using h pattern, ?_⟩
  rw [h [97]]
  decide

/-! ## The executors on multibyte text and whole words: claims C3, C5 -/

/-- C3, the code at the failing input. In the multibyte locale of `mbConfig` the
buffer `a <E3 78 81> \n` has the properties `[1, 0, 0, 0, 1]`; the only
occurrence of the exact keyword `x` (`0x78`) is at offset `2`, inside the
three-byte character, where the property is `0`.  `EGexecute` reads the property
at the start of the line (offset `0`, property `1`) and reports the line
`(0, 5)`; the claim says the hit is rejected and the line is not reported. -/
theorem EGexecute_reports_continuation_hit :
    check_multibyte_string mbConfig [97, 227, 120, 129, 10] = [1, 0, 0, 0, 1] ∧
      kwsexecLit [120] [97, 227, 120, 129, 10] = some ⟨2, 0, 1⟩ ∧
      kwsexecLit [120] (List.drop 3 [97, 227, 120, 129, 10]) = none ∧
      EGexecute mbConfig [litBundle [120]] [97, 227, 120, 129, 10] false 0 = .found 0 5 := by
  decide

/-- C5, the code at the failing input. Whole-word search for the keyword `he` in
the buffer `hex he\n`: the hit at offset `0` is followed by the word byte `x`,
the shorter search finds nothing, and `Fexecute` returns "no match" at once,
although `he` at offset `4` is a whole word; the claim gives `(0, 7)`. -/
theorem Fexecute_gives_up_after_first_hit :
    Fexecute { cConfig with match_words := true } [fixedBundle [104, 101]]
        [104, 101, 120, 32, 104, 101, 10] false = .nomatch ∧
      kwsexecLit [104, 101] (List.drop 4 [104, 101, 120, 32, 104, 101, 10]) = some ⟨0, 0, 2⟩ ∧
      WCHAR 32 = false ∧ WCHAR 10 = false := by
  decide

/-! ## Further properties -/

/-- Under the conditions of claim C1 (the last byte of the buffer is the
terminator, the keyword-set and DFA engines return offsets inside the text they
are given, `MB_CUR_MAX ≥ 1`) and with whole-word mode off, `EGexecute` returns
either "no match" or an `(offset, length)`: the run never leaves defined
behaviour and the `size + 1` iterations granted to the line loop suffice. -/
theorem EGexecute_defined (cfg : Config) (patterns : List Bundle) (buf : List Nat)
    (exact : Bool) (wfuel : Nat) (hterm : buf.getLast? = some cfg.eolbyte)
    (hmb : 1 ≤ cfg.mb_cur_max) (hw : cfg.match_words = false)
    (hkws : ∀ B ∈ patterns, ∀ kwsexec, B.kwset = some kwsexec →
      ∀ text m, kwsexec text = some m → m.offset < text.length)
    (hdfa : ∀ B ∈ patterns, ∀ text off backref, B.dfa text = some (off, backref) →
      off < text.length) :
    EGexecute cfg patterns buf exact wfuel = .nomatch ∨
      ∃ o l, EGexecute cfg patterns buf exact wfuel = .found o l := by
  induction patterns with
  | nil => exact Or.inl rfl
  | cons B rest ih =>
    have hline := EGline_defined cfg B (EGprops cfg B buf) buf exact wfuel hterm hw
      (hkws B (List.mem_cons_self _ _)) (hdfa B (List.mem_cons_self _ _))
      (by
        intro hsome hne
        have : 1 < cfg.mb_cur_max := by omega
        simp [EGprops, this, hsome, check_multibyte_string_length])
      (buf.length + 1) 0 (by omega)
    simp only [EGexecute]
    rcases hline with h | ⟨o, l, h⟩
    · rw [h]
      exact ih (fun B hB => hkws B (List.mem_cons_of_mem _ hB))
        (fun B hB => hdfa B (List.mem_cons_of_mem _ hB))
    · rw [h]
      exact Or.inr ⟨o, l, rfl⟩

/-- An instance of `EGexecute_defined`: the pattern `bar` on the buffer `foo\nbar\n`. -/
theorem EGexecute_defined_witness :
    EGexecute cConfig [litBundle [98, 97, 114]] [102, 111, 111, 10, 98, 97, 114, 10] false 0
        = .nomatch ∨
      ∃ o l, EGexecute cConfig [litBundle [98, 97, 114]]
        [102, 111, 111, 10, 98, 97, 114, 10] false 0 = .found o l :=
  EGexecute_defined cConfig [litBundle [98, 97, 114]] [102, 111, 111, 10, 98, 97, 114, 10]
    false 0 (by decide) (by decide) rfl
    (by
      intro B hB kwsexec hk text m hm
      simp only [List.mem_singleton] at hB
      subst hB
      simp only [litBundle, Option.some.injEq] at hk
      subst hk
      simp only [kwsexecLit, Option.map_eq_some'] at hm
      obtain ⟨off, hoff, rfl⟩ := hm
      exact findLit_lt (by simp) hoff)
    (by
      intro B hB text off backref hm
      simp only [List.mem_singleton] at hB
      subst hB
      simp only [litBundle, dfaexecLit, Option.map_eq_some', Prod.mk.injEq] at hm
      obtain ⟨off1, hoff, rfl, _⟩ := hm
      exact findLit_lt (by simp) hoff)

/-! ## Multibyte properties: claims C11, C19 -/

/-- C11, the code at the failing input. In the multibyte locale of `mbConfig`
the buffer `a <E3 78 81> \n` has the properties `[1, 0, 0, 0, 1]` and the
keyword `x` occurs only at offset `2`, where the property is `0`.  `Fexecute`
reads `mb_properties[offset]` with the offset counted from the cursor `beg`:
with the cursor at `0` and `1` it skips the hit, with the cursor at `2` the
offset is `0`, the property read is that of the byte `a`, and the exact-mode
result is the match `(2, 1)`; the claim says a reported start has property
`!= 0`. -/
theorem Fexecute_reads_property_at_relative_offset :
    check_multibyte_string mbConfig [97, 227, 120, 129, 10] = [1, 0, 0, 0, 1] ∧
      kwsexecLit [120] [97, 227, 120, 129, 10] = some ⟨2, 0, 1⟩ ∧
      Fexecute mbConfig [fixedBundle [120]] [97, 227, 120, 129, 10] true = .found 2 1 := by
  decide

/-- C19, the code at the failing input. The decoder of `mbConfig` returns `0` on
the NUL character, as `mbrlen` does.  For the buffer `a\0b` the branch commented
"Can't reach" is taken at the NUL byte: it stores the property `0` and leaves
`front_of_char` on the NUL, so the byte `b` after it gets `0` as well; the claim
gives `[1, 1, 1]`. -/
theorem check_multibyte_string_nul :
    mbConfig.mbrlen 0 [0] = (.len 0, 0) ∧
      check_multibyte_string mbConfig [97, 0, 98] = [1, 0, 0] ∧
      check_multibyte_string mbConfig [97, 98] = [1, 1] := by
  decide

/-! ## Compiling twice, and the musts: claims C13, C14 -/

/-- C14. For a non-empty must list `kwsmusts` gives a keyword set that holds
first the exact musts in list order and then the other musts in list order, and
sets `kwset_exact_matches` to the number of exact musts; so the keyword with
index `k` (in insertion order) comes from an exact must if and only if
`k < kwset_exact_matches`.  For the empty list it leaves the fields of
`patterns0`: no keyword set and `kwset_exact_matches = 0`. -/
theorem kwsmusts_keywords (musts : List DfaMust) :
    kwsmusts musts patterns0 =
        (if musts = [] then ⟨none, 0⟩
         else ⟨some ((musts.filter fun d => d.exact).map DfaMust.must ++
                 (musts.filter fun d => !d.exact).map DfaMust.must),
               (musts.filter fun d => d.exact).length⟩) ∧
      ∀ (k : Nat) (h : k < ((musts.filter fun d => d.exact) ++
            (musts.filter fun d => !d.exact)).length),
        (((musts.filter fun d => d.exact) ++ (musts.filter fun d => !d.exact))[k]).exact = true ↔
          k < (kwsmusts musts patterns0).kwset_exact_matches := by
  have hcount : (kwsmusts musts patterns0).kwset_exact_matches =
      (musts.filter fun d => d.exact).length := by
    cases musts with
    | nil => simp [kwsmusts, patterns0]
    | cons d ds => simp [kwsmusts, patterns0, kwsmustsExact_eq]
  refine ⟨?_, ?_⟩
  · cases musts with
    | nil => simp [kwsmusts, patterns0]
    | cons d ds =>
      simp [kwsmusts, patterns0, kwsmustsExact_eq, kwsmustsProbable_eq]
  · intro k h
    rw [hcount]
    by_cases hk : k < (musts.filter fun d => d.exact).length
    · rw [List.getElem_append_left hk]
      have hmem := List.getElem_mem hk
      simp only [List.mem_filter] at hmem
      simp [hmem.2, hk]
    · rw [List.getElem_append_right (by omega)]
      have hmem := List.getElem_mem
        (l := musts.filter fun d => !d.exact)
        (n := k - (musts.filter fun d => d.exact).length) (by
          simp only [List.length_append] at h
          omega)
      simp only [List.mem_filter, Bool.not_eq_true'] at hmem
      simp [hmem.2, hk]

/-! ## The DFA pattern text: claim C15 -/

/-- C15. The bytes that `Gcompile` and `Ecompile` leave in the buffer `n` and
hand to `dfacomp` are: with whole-line set (whether or not whole-word is set)
`line_beg`, the alternative, `line_end`; with whole-word alone `word_beg`, the
alternative, `word_end`; with neither flag the alternative itself.  The buffer of
`sizeof word_beg - 1 + size + sizeof word_end` bytes is never overrun, and the
alternative is copied byte for byte, NUL bytes included, so the length of the
wrapped text is the sum of the three lengths.  This text is the `dfa` source of
the bundle that the compile of a one-alternative pattern appends. -/
theorem dfa_pattern_text (cfg : Config) (junk : Nat → Nat) (alt : List Nat) :
    wrapBuffer G_line_beg G_line_end G_word_beg G_word_end cfg junk alt =
        .ok (wrappedText G_line_beg G_line_end G_word_beg G_word_end cfg alt) ∧
      wrapBuffer E_line_beg E_line_end E_word_beg E_word_end cfg junk alt =
        .ok (wrappedText E_line_beg E_line_end E_word_beg E_word_end cfg alt) ∧
      (∀ (pats : List PatSrc) (x : Nat) (tail : List Nat), 10 ∉ alt →
        Gcompile cfg pats (alt ++ x :: tail) alt.length =
          .ok (pats ++ [⟨alt, wrappedText G_line_beg G_line_end G_word_beg G_word_end cfg alt⟩])) ∧
      (∀ pats : List PatSrc, 10 ∉ alt →
        Ecompile cfg pats alt alt.length =
          .ok (pats ++ [⟨alt, wrappedText E_line_beg E_line_end E_word_beg E_word_end cfg alt⟩])) ∧
      (G_line_beg = [94, 92, 40] ∧ G_line_end = [92, 41, 36] ∧
        E_line_beg = [94, 40] ∧ E_line_end = [41, 36] ∧
        G_word_beg = "\\(^\\|[^[:alnum:]_]\\)\\(".toList.map Char.toNat ∧
        G_word_end = "\\)\\([^[:alnum:]_]\\|$\\)".toList.map Char.toNat ∧
        E_word_beg = "(^|[^[:alnum:]_])(".toList.map Char.toNat ∧
        E_word_end = ")([^[:alnum:]_]|$)".toList.map Char.toNat) := by
  refine ⟨?_, ?_, ?_, ?_, ?_⟩
  · rw [wrapBuffer_eq _ _ _ _ cfg junk alt (by decide) (by decide) (by decide) (by decide)
      (by decide) (by decide), wrapDfa_eq_wrappedText]
  · rw [wrapBuffer_eq _ _ _ _ cfg junk alt (by decide) (by decide) (by decide) (by decide)
      (by decide) (by decide), wrapDfa_eq_wrappedText]
  · intro pats x tail h10
    rw [Gcompile_single cfg pats alt x tail h10, wrapDfa_eq_wrappedText]
  · intro pats h10
    rw [Ecompile_single cfg pats alt h10, wrapDfa_eq_wrappedText]
  · decide

/-! ## Backreference patterns: claim C16 -/

/-- C16. Take pattern sets whose DFAs report a backreference on every hit, with
neither whole-word nor whole-line set, and with no exact must (an exact must is
a whole alternative that is a fixed string, so such a pattern has no
backreference).  If the non-exact `EGexecute` reports the line `(o, l)`, the
`re_search` of one of the bundles over the content `B[o .. o+l-1)` of that line,
terminator excluded, succeeds.  And a round of the line loop in which the DFA
hits but `re_search` fails on the content of the line reports nothing: the scan
goes on at the cursor `end`, the start of the next line. -/
theorem EGexecute_backref_regex_decides (cfg : Config) (patterns : List Bundle)
    (buf : List Nat) (wfuel : Nat)
    (hw : cfg.match_words = false) (hl : cfg.match_lines = false)
    (hback : ∀ B ∈ patterns, ∀ text off br, B.dfa text = some (off, br) → br = true)
    (hexact : ∀ B ∈ patterns, B.kwset_exact_matches = 0) :
    (∀ o l, EGexecute cfg patterns buf false wfuel = .found o l →
      ∃ B ∈ patterns, ∃ m, B.re_search false (slice buf o (l - 1)) 0 (l - 1) = some m) ∧
    (∀ B ∈ patterns, ∀ (props : List Nat) (fuel cur off k : Nat),
      B.kwset = none → cur < buf.length → B.dfa (buf.drop cur) = some (off, true) →
      memchr (buf.drop (cur + off)) cfg.eolbyte (buf.length - (cur + off)) = some k →
      B.re_search false
          (slice buf (rewind buf cfg.eolbyte (cur + off))
            (cur + off + k + 1 - rewind buf cfg.eolbyte (cur + off) - 1)) 0
          (cur + off + k + 1 - rewind buf cfg.eolbyte (cur + off) - 1) = none →
      EGline cfg B props buf false wfuel (fuel + 1) cur =
        EGline cfg B props buf false wfuel fuel (cur + off + k + 1)) ∧
    (∀ B ∈ patterns, ∀ (props : List Nat) (fuel cur k x : Nat)
      (kwsexec : List Nat → Option KwsMatch) (kwsm : KwsMatch),
      B.kwset = some kwsexec → cur < buf.length → kwsexec (buf.drop cur) = some kwsm →
      memchr (buf.drop (cur + kwsm.offset)) cfg.eolbyte (buf.length - (cur + kwsm.offset))
        = some k →
      B.dfa (slice buf (rewind buf cfg.eolbyte (cur + kwsm.offset))
          (cur + kwsm.offset + k + 1 - rewind buf cfg.eolbyte (cur + kwsm.offset)))
        = some (x, true) →
      B.re_search false
          (slice buf (rewind buf cfg.eolbyte (cur + kwsm.offset))
            (cur + kwsm.offset + k + 1 - rewind buf cfg.eolbyte (cur + kwsm.offset) - 1)) 0
          (cur + kwsm.offset + k + 1 - rewind buf cfg.eolbyte (cur + kwsm.offset) - 1) = none →
      EGline cfg B props buf false wfuel (fuel + 1) cur =
        EGline cfg B props buf false wfuel fuel (cur + kwsm.offset + k + 1)) := by
  refine ⟨?_, ?_, ?_⟩
  · intro o l h
    induction patterns with
    | nil => simp [EGexecute] at h
    | cons B rest ih =>
      simp only [EGexecute] at h
      split at h
      · obtain ⟨B1, hB1, hm⟩ := ih (fun B hB => hback B (List.mem_cons_of_mem _ hB))
          (fun B hB => hexact B (List.mem_cons_of_mem _ hB)) h
        exact ⟨B1, List.mem_cons_of_mem _ hB1, hm⟩
      · exact ⟨B, List.mem_cons_self _ _,
          EGline_backref hw hl (hback B (List.mem_cons_self _ _))
            (hexact B (List.mem_cons_self _ _)) _ _ h⟩
  · intro B _ props fuel cur off k hk hcur hd hm hre
    simp [EGline, hk, hcur, hd, hm, EGconfirm_plain hw hl, hre]
  · intro B hB props fuel cur k x kwsexec kwsm hk hcur hkw hm hd hre
    simp [EGline, hk, hcur, hkw, hm, hexact B hB, hd, EGconfirm_plain hw hl, hre]

/-- Witness for C16: the bundle of `\(a\)\1` on the buffer `xa\nxaa\n`.  The DFA
hits on the first line, the regex fails there, and the second line `(3, 4)` is
reported, on whose content `xaa` the regex search succeeds. -/
theorem EGexecute_backref_regex_decides_witness :
    EGexecute cConfig [backrefBundle] [120, 97, 10, 120, 97, 97, 10] false 0 = .found 3 4 ∧
      ∃ B ∈ [backrefBundle], ∃ m,
        B.re_search false (slice [120, 97, 10, 120, 97, 97, 10] 3 (4 - 1)) 0 (4 - 1) = some m :=
  ⟨by decide,
    (EGexecute_backref_regex_decides cConfig [backrefBundle] [120, 97, 10, 120, 97, 97, 10] 0
      rfl rfl
      (by
        intro B hB text off br hd
        simp only [List.mem_singleton] at hB
        subst hB
        simp only [backrefBundle, Option.map_eq_some', Prod.mk.injEq] at hd
        obtain ⟨_, _, _, rfl⟩ := hd
        rfl)
      (by
        intro B hB
        simp only [List.mem_singleton] at hB
        subst hB
        rfl)).1 3 4 (by decide)⟩

/-! ## The whole-word loop of `EGexecute` -/

/-- C18: in the whole-word confirmation of `EGexecute`, for a line
`buf[beg .. endp)` that ends in the terminator and an engine whose results lie
within the text it was given, the whole-word loop accepts the line only for a
span that the regex engine returned within the line content, with `start = 0` or
a non-word byte before it, and with the line terminator or a non-word byte at
`start + len`.  This holds for the loop from any engine span within the line,
and so for the confirmation step when whole-word is set without whole-line. -/
theorem EGexecute_word_loop_accepts (cfg : Config) (B : Bundle) (buf : List Nat)
    (beg endp : Nat)
    (hmatch : ∀ text st n, B.re_match true text st = some n → st + n ≤ text.length)
    (hsearch : ∀ text st range m, B.re_search false text st range = some m →
      m.start + m.len ≤ text.length)
    (hbe : beg < endp) (hend : buf.get? (endp - 1) = some cfg.eolbyte) :
    (∀ fuel start len o l, RegexSpan B (slice buf beg (endp - beg - 1)) start len →
        start + len ≤ endp - beg - 1 →
        EGwordLoop B buf beg endp fuel start len = some (.found o l) →
        AcceptedSpan cfg B buf beg endp) ∧
      (∀ wfuel o l, cfg.match_words = true → cfg.match_lines = false →
        EGconfirm cfg B buf false wfuel beg endp = some (.found o l) →
        AcceptedSpan cfg B buf beg endp) := by
  have key : ∀ fuel start len o l, RegexSpan B (slice buf beg (endp - beg - 1)) start len →
      start + len ≤ endp - beg - 1 →
      EGwordLoop B buf beg endp fuel start len = some (.found o l) →
      AcceptedSpan cfg B buf beg endp := by
    intro fuel start len o l hspan hin h
    obtain ⟨s, n, h1, h2, h3⟩ := EGwordLoop_bounded hmatch hsearch fuel start len hspan hin h
    refine ⟨s, n, h1, h2, h3, ?_⟩
    intro he
    have : beg + s + n = endp - 1 := by omega
    rw [this]
    exact hend
  refine ⟨key, ?_⟩
  intro wfuel o l hw hl h
  rw [EGconfirm_words hw hl] at h
  split at h
  · simp at h
  · rename_i m hm
    have hb := hsearch _ _ _ _ hm
    have hs := slice_length_le buf beg (endp - beg - 1)
    exact key wfuel m.start m.len o l (Or.inl ⟨0, endp - beg - 1, hm⟩) (by omega) h

/-- C18 on the buffer `foobar\nfoo bar\n` and the pattern `foo` in whole-word
mode: the second line, `buf[7 .. 15)`, is accepted. -/
theorem EGexecute_word_loop_accepts_witness :
    EGconfirm { cConfig with match_words := true } (litBundle [102, 111, 111])
        [102, 111, 111, 98, 97, 114, 10, 102, 111, 111, 32, 98, 97, 114, 10] false 4 7 15 =
        some (.found 7 8) ∧
      AcceptedSpan { cConfig with match_words := true } (litBundle [102, 111, 111])
        [102, 111, 111, 98, 97, 114, 10, 102, 111, 111, 32, 98, 97, 114, 10] 7 15 :=
  ⟨by decide,
    (EGexecute_word_loop_accepts { cConfig with match_words := true }
      (litBundle [102, 111, 111])
      [102, 111, 111, 98, 97, 114, 10, 102, 111, 111, 32, 98, 97, 114, 10] 7 15
      (re_matchLit_bound (by decide))
      (fun text st range m h => (re_searchLit_bound (by decide) text st range m h).2)
      (by decide) (by decide)).2 4 7 8 rfl rfl (by decide)⟩

/-- C20: the whole-word retry loop of `EGexecute` terminates on every line.
Assume the anchored match returns a failure or a length within the shortened
text, and the forward search returns a failure or a start not below the start it
was given and not beyond the text.  Then a round that goes on either keeps
`start` and lowers `len`, or raises `start` (to at most the line length); a round
that leaves the loop without success does so at `start` = line length or on a
failed search; and with enough fuel the loop returns: success, no match on this
line, or (for a span that reaches outside the buffer) a read out of bounds.
When the spans of the engine lie within the text and the line within the buffer,
only success and no match remain. -/
theorem EGexecute_word_loop_terminates (B : Bundle) (buf : List Nat) (beg endp : Nat)
    (hmatch : ∀ text st n, B.re_match true text st = some n → st + n ≤ text.length)
    (hsearch : ∀ text st range m, B.re_search false text st range = some m →
      st ≤ m.start ∧ m.start ≤ text.length) :
    (∀ fuel start len, EGwordLoop B buf beg endp (fuel + 1) start len =
        match EGwordStep B buf beg endp start len with
        | .exit r => r
        | .again s l => EGwordLoop B buf beg endp fuel s l) ∧
      (∀ start len s l, EGwordStep B buf beg endp start len = .again s l →
        (s = start ∧ l < len) ∨ (start < s ∧ s ≤ endp - beg - 1)) ∧
      (∀ start len, EGwordStep B buf beg endp start len = .exit none →
        start = endp - beg - 1 ∨
          B.re_search false (slice buf beg (endp - beg - 1)) (start + 1)
            (endp - beg - 1 - (start + 1)) = none) ∧
      (∀ start len, ∃ N, ∀ fuel, N ≤ fuel →
        EGwordLoop B buf beg endp fuel start len = some (.found beg (endp - beg)) ∨
        EGwordLoop B buf beg endp fuel start len = none ∨
        EGwordLoop B buf beg endp fuel start len = some .undefined) ∧
      ((∀ text st range m, B.re_search false text st range = some m →
          m.start + m.len ≤ text.length) →
        beg < endp → endp ≤ buf.length →
        ∀ start len, start + len ≤ endp - beg - 1 → ∃ N, ∀ fuel, N ≤ fuel →
          EGwordLoop B buf beg endp fuel start len = some (.found beg (endp - beg)) ∨
          EGwordLoop B buf beg endp fuel start len = none) := by
  refine ⟨fun fuel start len => EGwordLoop_succ B buf beg endp fuel start len,
    fun start len s l h => EGwordStep_again hmatch hsearch h,
    fun start len h => EGwordStep_exit_none h,
    fun start len => EGwordLoop_terminates hmatch hsearch start len, ?_⟩
  intro hsum hbe hbuf start len hin
  exact EGwordLoop_settles hmatch
    (fun text st range m h => ⟨(hsearch text st range m h).1, hsum text st range m h⟩)
    hbe hbuf start len hin

/-- C20 on the buffer `foobar\nfoo bar\n` and the pattern `foo`: the loop on the
first line, entered with the span `(0, 3)`, ends without a match after two
rounds, and the loop on the second line ends in success. -/
theorem EGexecute_word_loop_terminates_witness :
    EGwordLoop (litBundle [102, 111, 111])
        [102, 111, 111, 98, 97, 114, 10, 102, 111, 111, 32, 98, 97, 114, 10] 0 7 2 0 3 = none ∧
      EGwordLoop (litBundle [102, 111, 111])
        [102, 111, 111, 98, 97, 114, 10, 102, 111, 111, 32, 98, 97, 114, 10] 7 15 1 0 3 =
        some (.found 7 8) ∧
      ∃ N, ∀ fuel, N ≤ fuel →
        EGwordLoop (litBundle [102, 111, 111])
            [102, 111, 111, 98, 97, 114, 10, 102, 111, 111, 32, 98, 97, 114, 10] 0 7 fuel 0 3 =
            some (.found 0 7) ∨
          EGwordLoop (litBundle [102, 111, 111])
            [102, 111, 111, 98, 97, 114, 10, 102, 111, 111, 32, 98, 97, 114, 10] 0 7 fuel 0 3 =
            none :=
  ⟨by decide, by decide,
    (EGexecute_word_loop_terminates (litBundle [102, 111, 111])
      [102, 111, 111, 98, 97, 114, 10, 102, 111, 111, 32, 98, 97, 114, 10] 0 7
      (re_matchLit_bound (by decide))
      (fun text st range m h => by
        have := re_searchLit_bound (w := [102, 111, 111]) (by decide) text st range m h
        omega)).2.2.2.2
      (fun text st range m h => (re_searchLit_bound (by decide) text st range m h).2)
      (by decide) (by decide) 0 3 (by decide)⟩

/-! ## The last line without terminator -/

/-- C17, counterexample. On the buffer `a\nfoo`, whose last line `foo` has no
terminator, the pattern `foo` hits on the last line; `memchr` finds no
terminator and returns `NULL`, which the code increments and uses, so the result
is not defined: it is not the region `(2, 3)` that ends at `N = 5`. -/
theorem EGexecute_unterminated_counterexample :
    kwsexecLit [102, 111, 111] [97, 10, 102, 111, 111] = some ⟨2, 0, 3⟩ ∧
      memchr ([97, 10, 102, 111, 111].drop 2) 10 (5 - 2) = none ∧
      EGexecute cConfig [litBundle [102, 111, 111]] [97, 10, 102, 111, 111] false 0 =
        .undefined ∧
      EGexecute cConfig [litBundle [102, 111, 111]] [97, 10, 102, 111, 111] false 0 ≠
        .found 2 3 := by
  decide

/-- C17, amended. The layered executor needs a terminated last line.  In the
scan of a pattern in non-exact mode, when the prefilter hit (of the keyword set,
or of the DFA for a pattern without keyword set) lies at a position after which
the buffer holds no terminator, the result is not defined; this is also the
result of `EGexecute` when it is the first hit of the first pattern.  Every
region `(o, l)` that `EGexecute` returns in non-exact mode is a line that ends
in the terminator, with `o + l ≤ N`. -/
theorem EGexecute_unterminated (cfg : Config) (B : Bundle) (buf : List Nat) (wfuel : Nat) :
    (∀ props fuel cur kwsexec kwsm, cur < buf.length → B.kwset = some kwsexec →
        kwsexec (buf.drop cur) = some kwsm →
        cfg.eolbyte ∉ buf.drop (cur + kwsm.offset) →
        EGline cfg B props buf false wfuel (fuel + 1) cur = .undefined) ∧
      (∀ props fuel cur offset backref, cur < buf.length → B.kwset = none →
        B.dfa (buf.drop cur) = some (offset, backref) →
        cfg.eolbyte ∉ buf.drop (cur + offset) →
        EGline cfg B props buf false wfuel (fuel + 1) cur = .undefined) ∧
      (∀ rest kwsexec kwsm, buf ≠ [] → B.kwset = some kwsexec →
        kwsexec buf = some kwsm → cfg.eolbyte ∉ buf.drop kwsm.offset →
        EGexecute cfg (B :: rest) buf false wfuel = .undefined) ∧
      (∀ rest offset backref, buf ≠ [] → B.kwset = none →
        B.dfa buf = some (offset, backref) → cfg.eolbyte ∉ buf.drop offset →
        EGexecute cfg (B :: rest) buf false wfuel = .undefined) ∧
      (∀ patterns o l, EGexecute cfg patterns buf false wfuel = .found o l →
        o + l ≤ buf.length ∧ buf[o + l - 1]? = some cfg.eolbyte) := by
  refine ⟨fun props fuel cur kwsexec kwsm hcur hk hhit hno =>
      EGline_unterminated_kws hcur hk hhit hno,
    fun props fuel cur offset backref hcur hk hhit hno =>
      EGline_unterminated_dfa hcur hk hhit hno, ?_, ?_, ?_⟩
  · intro rest kwsexec kwsm hne hk hhit hno
    have hcur : 0 < buf.length := List.length_pos.mpr hne
    have := @EGline_unterminated_kws cfg B (EGprops cfg B buf) buf wfuel buf.length 0 kwsexec
      kwsm hcur hk (by simpa using hhit) (by simpa using hno)
    simp [EGexecute, this]
  · intro rest offset backref hne hk hhit hno
    have hcur : 0 < buf.length := List.length_pos.mpr hne
    have := @EGline_unterminated_dfa cfg B (EGprops cfg B buf) buf wfuel buf.length 0 offset
      backref hcur hk (by simpa using hhit) (by simpa using hno)
    simp [EGexecute, this]
  · intro patterns o l h
    have hw := EGexecute_found_wholeLine h
    exact ⟨hw.2.1, hw.2.2.2.1⟩

/-! ## The properties of the bytes of a multibyte character -/

/-- C12: on a buffer made of complete characters `check_multibyte_string` gives
each character the properties `charProps`: `1` to a single byte (valid or
rejected by the decoder) and `0` to every byte of a longer character, its first
byte included.  In the locale of `mbConfig` the bytes `227 129 130` are one
character of three bytes, and in the buffer `a 227 129 130 b` its first byte
gets the property `0`, not `3`. -/
theorem check_multibyte_string_first_byte :
    (∀ (cfg : Config) (chars : List (List Nat)), (∀ c ∈ chars, IsChar cfg c) →
        check_multibyte_string cfg chars.flatten = (chars.map charProps).flatten) ∧
      IsChar mbConfig [227, 129, 130] ∧
      check_multibyte_string mbConfig [97, 227, 129, 130, 98] = [1, 0, 0, 0, 1] ∧
      (check_multibyte_string mbConfig [97, 227, 129, 130, 98]).get? 1 ≠ some 3 := by
  refine ⟨check_multibyte_string_chars, ⟨by decide, ?_, ?_⟩, by decide, by decide⟩
  · intro st
    left
    rfl
  · intro st j h0 h3
    have h3 : j < 3 := h3
    interval_cases j <;> rfl

/-! ## The buffer of `Pcompile`: claim C21 -/

/-- C21: the buffer `re` of `4 * size + 7` bytes is enough for `Pcompile`.  For
every pattern and every setting of the whole-word and whole-line flags (with
the line terminator `\n`, the only one `Pcompile` accepts) the run makes no read
or write outside `re` and hands to `pcre_compile` the opening, the NUL-escaped
pattern and the closing, whose length plus one for the final NUL is at most
`4 * size + 7`.  In a round of the loop that starts at `p` (the start of the
pattern or the byte after a NUL) and finds the next NUL `k` bytes on, the amount
`(pnul - p) & 1` taken from the write cursor is at most the `k` bytes just
copied, so the cursor does not go below its value at the start of the round,
and never before the start of the buffer. -/
theorem Pcompile_buffer_suffices (cfg : Config) (junk : Nat → Nat) (pattern : List Nat)
    (heol : cfg.eolbyte = 10) :
    (∃ out, Pcompile cfg junk pattern = .ok out ∧
        out = PcompileHead cfg ++ encodeSpec pattern ++ PcompileTail cfg ∧
        out.length + 1 ≤ 4 * pattern.length + 7) ∧
      (∀ p k, (p = 0 ∨ pattern[p - 1]? = some 0) →
        memchr (pattern.drop p) 0 (pattern.length - p) = some k →
        (p + k - backslashScan pattern (p + k)) % 2 ≤ k ∧
          ∀ n, ¬ n + (p + k - p) < (p + k - backslashScan pattern (p + k)) % 2) := by
  refine ⟨⟨_, Pcompile_eq cfg junk pattern heol, rfl, ?_⟩, ?_⟩
  · have h1 := PcompileHead_length_le cfg
    have h2 := PcompileTail_length_le cfg
    have h3 := encodeFrom_length_le [] pattern
    simp only [List.length_append, encodeSpec]
    omega
  · intro p k hp _
    have hge : p ≤ backslashScan pattern (p + k) := by
      apply backslashScan_ge pattern p (p + k) (by omega)
      rcases hp with h0 | h0
      · exact Or.inl h0
      · right
        simp [List.getD_eq_getElem?_getD, h0]
    have hmod : (p + k - backslashScan pattern (p + k)) % 2 ≤
        p + k - backslashScan pattern (p + k) := Nat.mod_le _ _
    refine ⟨by omega, ?_⟩
    intro n
    omega

/-- C21 on the pattern that is one NUL byte, with whole-word set: the text is
`\b(\000)\b`, ten bytes, and with its final NUL it fills the `4 * 1 + 7` bytes
of the buffer.  On the pattern `\` NUL without flags the backslash is removed
and the write cursor goes back to the start of the buffer, not before it. -/
theorem Pcompile_buffer_suffices_witness :
    Pcompile { cConfig with match_words := true } (fun _ => 255) [0] =
        .ok [92, 98, 40, 92, 48, 48, 48, 41, 92, 98] ∧
      Pcompile cConfig (fun _ => 255) [92, 0] = .ok [92, 48, 48, 48] ∧
      ((∃ out, Pcompile { cConfig with match_words := true } (fun _ => 255) [0] = .ok out ∧
          out = PcompileHead { cConfig with match_words := true } ++ encodeSpec [0] ++
            PcompileTail { cConfig with match_words := true } ∧
          out.length + 1 ≤ 4 * [0].length + 7) ∧
        (∀ p k, (p = 0 ∨ [0][p - 1]? = some 0) →
          memchr ([0].drop p) 0 ([0].length - p) = some k →
          (p + k - backslashScan [0] (p + k)) % 2 ≤ k ∧
            ∀ n, ¬ n + (p + k - p) < (p + k - backslashScan [0] (p + k)) % 2)) :=
  ⟨by decide, by decide,
    Pcompile_buffer_suffices { cConfig with match_words := true } (fun _ => 255) [0] rfl⟩

end Grep
